import Mathlib

/-!
Verification development for the Tecindo document persistence and consistency
engine: a shallow embedding of the repository's data model (SQLite schema from
the migrations), its documented backend flows (BACKEND_ARCHITECTURE.md, the
REST API reference) and the frontend TypeScript modules, together with proofs
of the behavioural properties stated in the specification.
-/

namespace Tecindo

/-- Error taxonomy of the backend, from the `AppError` enum documented in
`src/docs/BACKEND_ARCHITECTURE.md` (error.rs). `forbidden` is included as a
vocabulary item so that "never `Forbidden`" is expressible; the real enum has
no such variant, and no modelled operation produces it. -/
inductive AppError where
  | notFound
  | badRequest (msg : String)
  | unauthorized (msg : String)
  | conflict (msg : String)
  | internal (msg : String)
  | databaseError
  | ioError
  | forbidden
deriving Repr, DecidableEq

/-! ## Frontend: `authFetch` (src/frontend/src/api/client.ts lines 13-45) -/

/-- An HTTP response as far as `authFetch` inspects it: its status and an
opaque payload standing for everything else. -/
structure Response where
  status : Nat
  payload : String
deriving Repr, DecidableEq

/-- The browser's `localStorage` slice touched by `authFetch`. -/
structure TokenStore where
  accessToken : Option String
  refreshToken : Option String
deriving Repr, DecidableEq

/-- Outcome of the `POST /auth/refresh` call inside `authFetch`:
`refreshResponse.ok` with a new token pair, a non-ok response, or a thrown
network error (the `catch` branch). -/
inductive RefreshOutcome where
  | ok (newAccess newRefresh : String)
  | notOk
  | threw
deriving Repr, DecidableEq

/-- Environment for one `authFetch` call: how the network answers the original
request (as a function of the `Authorization` bearer token sent, `none` when
no token is stored) and how the refresh endpoint answers. -/
structure FetchEnv where
  respond : Option String → Response
  refresh : RefreshOutcome

/-- Observable result of `authFetch`: the returned response, the token store
afterwards, whether `window.location.href = '/login'` ran, and how many times
the original request was sent. -/
structure AuthFetchResult where
  result : Response
  store : TokenStore
  redirectedToLogin : Bool
  originalRequestCount : Nat
deriving Repr, DecidableEq

/-- Shallow embedding of `authFetch` (client.ts lines 13-45). The first fetch
carries the stored access token if any; on a 401 with a token stored and a
refresh token present, the refresh endpoint is called; if it answers ok the
tokens are replaced and the original request is retried once with the new
access token and that response is returned; otherwise both tokens are removed,
the browser is redirected to `/login`, and the original response is returned. -/
def authFetch (st : TokenStore) (env : FetchEnv) : AuthFetchResult :=
  match st.accessToken with
  | none =>
      { result := env.respond none, store := st,
        redirectedToLogin := false, originalRequestCount := 1 }
  | some tok =>
      let response := env.respond (some tok)
      if response.status = 401 then
        match st.refreshToken with
        | none =>
            { result := response, store := st,
              redirectedToLogin := false, originalRequestCount := 1 }
        | some _ =>
            match env.refresh with
            | .ok newAccess newRefresh =>
                { result := env.respond (some newAccess),
                  store := { accessToken := some newAccess,
                             refreshToken := some newRefresh },
                  redirectedToLogin := false, originalRequestCount := 2 }
            | .notOk =>
                { result := response,
                  store := { accessToken := none, refreshToken := none },
                  redirectedToLogin := true, originalRequestCount := 1 }
            | .threw =>
                { result := response,
                  store := { accessToken := none, refreshToken := none },
                  redirectedToLogin := true, originalRequestCount := 1 }
      else
        { result := response, store := st,
          redirectedToLogin := false, originalRequestCount := 1 }

/-! ## Frontend: `documentStore.loadContent`
(src/frontend/src/stores/documentStore.ts lines 101-113) -/

/-- The slice of a `Document` the store guard inspects. -/
structure DocMeta where
  id : String
  title : String
deriving Repr, DecidableEq

/-- The Zustand `documentStore` fields touched by `loadContent`. -/
structure DocStoreState where
  currentDocument : Option DocMeta
  currentContent : String
  loading : Bool
  error : Option String
deriving Repr, DecidableEq

/-- How the `fetchDocumentContent(id)` promise settles. -/
inductive FetchContentOutcome where
  | ok (content : String)
  | err (message : String)
deriving Repr, DecidableEq

/-- The synchronous start of `loadContent`: `set({ loading: true, error: null })`. -/
def loadContentStart (st : DocStoreState) : DocStoreState :=
  { st with loading := true, error := none }

/-- The completion of `loadContent(id)`, applied to the store state `st` at the
moment the fetch settles: both the success and the failure branch first check
`get().currentDocument?.id === id` and do nothing when it fails
(documentStore.ts lines 105-111). -/
def loadContentComplete (st : DocStoreState) (id : String)
    (outcome : FetchContentOutcome) : DocStoreState :=
  match outcome with
  | .ok content =>
      if st.currentDocument.map DocMeta.id = some id then
        { st with currentContent := content, loading := false }
      else st
  | .err message =>
      if st.currentDocument.map DocMeta.id = some id then
        { st with error := some message, loading := false }
      else st

/-! ## Frontend: editor auto-save debounce
(src/frontend/src/components/Editor/Editor.tsx lines 35-52) -/

/-- A scheduled auto-save: the wall-clock time at which the `setTimeout`
callback fires and the markdown captured when it was scheduled. -/
structure PendingSave where
  fireAt : Nat
  content : String
deriving Repr, DecidableEq

/-- Auto-save state of the editor: the single `saveTimeoutRef` slot and the
`saveContent` requests issued so far. -/
structure EditorSaveState where
  pending : Option PendingSave
  fired : List String
deriving Repr, DecidableEq

/-- A due timer fires: if a save is scheduled at or before `now`, the timeout
callback runs `saveContent` with the markdown it captured. -/
def fireDue (st : EditorSaveState) (now : Nat) : EditorSaveState :=
  match st.pending with
  | some p =>
      if p.fireAt ≤ now then { pending := none, fired := st.fired ++ [p.content] }
      else st
  | none => st

/-- The `onUpdate` handler (Editor.tsx lines 35-52): bail out when no document
is open or `skipUpdateRef` is set; otherwise `clearTimeout` any previously
scheduled save and schedule a save of the current full markdown 1000 ms
later. -/
def onUpdate (docId : Option String) (skipUpdate : Bool) (st : EditorSaveState)
    (now : Nat) (markdown : String) : EditorSaveState :=
  match docId with
  | none => st
  | some _ =>
      if skipUpdate then st
      else { st with pending := some { fireAt := now + 1000, content := markdown } }

/-- One keystroke-driven editor update at time `e.1` producing markdown `e.2`:
any timer already due has fired, then `onUpdate` runs. -/
def stepEdit (docId : Option String) (st : EditorSaveState)
    (e : Nat × String) : EditorSaveState :=
  onUpdate docId false (fireDue st e.1) e.1 e.2

/-- Run a burst of editor updates on document `d`, starting with no scheduled
save and no requests issued. -/
def runBurst (d : String) (updates : List (Nat × String)) : EditorSaveState :=
  updates.foldl (stepEdit (some d)) { pending := none, fired := [] }

/-- All `saveContent` requests eventually issued once input pauses long enough
for the last scheduled timer to fire. -/
def flushPending (st : EditorSaveState) : List String :=
  st.fired ++ (match st.pending with | some p => [p.content] | none => [])

/-! ## Backend: document creation flow
(src/docs/BACKEND_ARCHITECTURE.md, section 4 "데이터 흐름 예시: 문서 생성",
Steps 5-6, and the REST API reference for `POST /documents`) -/

/-- One observable storage operation performed by `create_document`. -/
inductive CreateEvent where
  | writeFile (path : String)
  | insertRow (id path : String)
  | deleteRow (id : String)
deriving Repr, DecidableEq

/-- The two storage substrates as `create_document` touches them: document
metadata rows `(id, file_path)` and the set of content files on disk. -/
structure CreateState where
  rows : List (String × String)
  files : List String
deriving Repr, DecidableEq

/-- Shallow embedding of the `create_document` flow documented in
BACKEND_ARCHITECTURE.md section 4: Step 5 writes the empty markdown file
(`services::write_markdown(&state.documents_path, &file_path, "")`), Step 6
inserts the metadata row (`db::create_document`). A failure at either step
propagates through `?` as the result; the doc records no compensating action,
so a failed insert leaves the already-written file in place. `writeOk` and
`insertOk` say whether each step's I/O succeeds. -/
def create_document (st : CreateState) (docId filePath : String)
    (writeOk insertOk : Bool) :
    Except AppError Unit × CreateState × List CreateEvent :=
  if !writeOk then
    (.error .ioError, st, [])
  else
    let st1 : CreateState := { st with files := filePath :: st.files }
    if !insertOk then
      (.error .databaseError, st1, [.writeFile filePath])
    else
      (.ok (), { st1 with rows := (docId, filePath) :: st1.rows },
       [.writeFile filePath, .insertRow docId filePath])

/-- The commit order asserted by the claim: the metadata insert is the first
operation of the trace. -/
def insertedFirst (trace : List CreateEvent) : Bool :=
  match trace.head? with
  | some (.insertRow _ _) => true
  | _ => false

/-- Every metadata row points at a content file that exists. -/
def FilesCoverRows (st : CreateState) : Prop :=
  ∀ r ∈ st.rows, r.2 ∈ st.files

/-! ## Backend: `tags` table constraints
(src: 001_initial schema and the user_id migration in the SQL sources) -/

/-- A row of the `tags` table after all migrations: `001_initial.sql` declares
`id TEXT PRIMARY KEY, name TEXT NOT NULL UNIQUE, color TEXT`; the user_id
migration adds the nullable `user_id TEXT REFERENCES users(id)` column. -/
structure TagRow where
  id : String
  userId : Option String
  name : String
  color : Option String
deriving Repr, DecidableEq

/-- Insert into `tags` under the constraints actually present in the schema,
checked in declaration order: `PRIMARY KEY (id)` and the table-level
`UNIQUE (name)` from `001_initial.sql` — SQLite's `ALTER TABLE` cannot drop a
table constraint and the user_id migration only adds a column and an index —
then `CREATE UNIQUE INDEX idx_tags_user_name ON tags(user_id, name)`. Any
violated constraint surfaces as `Conflict`. -/
def insertTag (tags : List TagRow) (t : TagRow) : Except AppError (List TagRow) :=
  if tags.any (fun u => u.id == t.id) then .error (.conflict "tags.id")
  else if tags.any (fun u => u.name == t.name) then .error (.conflict "tags.name")
  else if tags.any (fun u => u.userId == t.userId && u.name == t.name) then
    .error (.conflict "idx_tags_user_name")
  else .ok (t :: tags)

/-! ## Backend: document versions
(src: the `document_versions` migration with `UNIQUE(document_id,
version_number)` and the index on `(document_id, version_number DESC)`; the
REST API reference `GET /documents/:id/versions` which lists newest first; the
`MAX_DOCUMENT_VERSIONS` environment variable, default 50) -/

/-- A row of the `document_versions` table. -/
structure VersionRow where
  id : String
  documentId : String
  versionNumber : Nat
  content : String
  wordCount : Nat
  charCount : Nat
  createdAt : Nat
deriving Repr, DecidableEq

/-- The versions belonging to one document. -/
def doc_versions (versions : List VersionRow) (docId : String) : List VersionRow :=
  versions.filter (fun v => v.documentId == docId)

/-- Modelled from the spec: "Version numbers are assigned as `1 + max(existing
version_number for this document, default 0)`" — the backend query that
computes the next number (db code for `document_versions`) is not among the
sources. -/
def next_version_number (versions : List VersionRow) (docId : String) : Nat :=
  1 + ((doc_versions versions docId).map VersionRow.versionNumber).foldr max 0

/-- Modelled from the spec: inserting a snapshot row assigns the next version
number for its document (the backend insert statement is not among the
sources); the schema's `UNIQUE(document_id, version_number)` cannot fire
because the assigned number exceeds every existing one. -/
def insert_version (versions : List VersionRow) (vid docId content : String)
    (words chars createdAt : Nat) : List VersionRow :=
  { id := vid, documentId := docId,
    versionNumber := next_version_number versions docId,
    content := content, wordCount := words, charCount := chars,
    createdAt := createdAt } :: versions

/-- Newest-first order of the version listing: `ORDER BY version_number DESC`. -/
def byVersionDesc (v w : VersionRow) : Prop :=
  w.versionNumber ≤ v.versionNumber

instance : DecidableRel byVersionDesc := fun v w =>
  inferInstanceAs (Decidable (w.versionNumber ≤ v.versionNumber))

instance : IsTotal VersionRow byVersionDesc :=
  ⟨fun a b => Nat.le_total b.versionNumber a.versionNumber⟩

instance : IsTrans VersionRow byVersionDesc :=
  ⟨fun _ _ _ h1 h2 => Nat.le_trans h2 h1⟩

instance : IsAntisymm VersionRow (fun a b => b.versionNumber < a.versionNumber) :=
  ⟨fun _ _ h1 h2 => absurd (Nat.lt_trans h1 h2) (Nat.lt_irrefl _)⟩

/-- `GET /documents/:id/versions`: the document's versions, newest first
("최신 순", backed by the `(document_id, version_number DESC)` index). -/
def list_versions (versions : List VersionRow) (docId : String) : List VersionRow :=
  List.insertionSort byVersionDesc (doc_versions versions docId)

/-- The smallest version number present in a list of rows (0 for the empty
list, which retention never consults). -/
def minVN : List VersionRow → Nat
  | [] => 0
  | [v] => v.versionNumber
  | v :: rest => min v.versionNumber (minVN rest)

/-- Modelled from the spec: delete the single oldest version of `docId`
(the backend retention query is not among the sources). -/
def remove_oldest_of (versions : List VersionRow) (docId : String) : List VersionRow :=
  versions.eraseP (fun u =>
    u.documentId == docId && u.versionNumber == minVN (doc_versions versions docId))

/-- Fuel-indexed retention loop; `enforce_retention` supplies enough fuel. -/
def enforce_retention_aux (maxV : Nat) (docId : String) :
    Nat → List VersionRow → List VersionRow
  | 0, vs => vs
  | fuel + 1, vs =>
      if (doc_versions vs docId).length ≤ maxV then vs
      else enforce_retention_aux maxV docId fuel (remove_oldest_of vs docId)

/-- Modelled from the spec: "After inserting a new version, if the number of
versions for the document exceeds a configured maximum (default 50), delete
the oldest versions until the count equals the maximum" (the backend retention
code is not among the sources). -/
def enforce_retention (maxV : Nat) (docId : String)
    (versions : List VersionRow) : List VersionRow :=
  enforce_retention_aux maxV docId versions.length versions

/-- Default of the `MAX_DOCUMENT_VERSIONS` environment variable. -/
def MAX_DOCUMENT_VERSIONS : Nat := 50

/-- Modelled from the spec: a snapshot-qualifying edit inserts a version and
then enforces the retention cap. -/
def insert_with_retention (maxV : Nat) (versions : List VersionRow)
    (vid docId content : String) (words chars createdAt : Nat) : List VersionRow :=
  enforce_retention maxV docId
    (insert_version versions vid docId content words chars createdAt)

/-- Modelled from the spec: deleting a set of version rows (by id) removes
exactly those rows and touches no other row. -/
def delete_versions (versions : List VersionRow) (ids : List String) :
    List VersionRow :=
  versions.filter (fun v => !(ids.contains v.id))

/-- N snapshot-qualifying edits of document `d`, oldest first, starting from
an empty `document_versions` table. -/
def snapshotIter (maxV : Nat) (d : String) : Nat → List VersionRow
  | 0 => []
  | k + 1 =>
      insert_with_retention maxV (snapshotIter maxV d k)
        ("v" ++ toString k) d ("content " ++ toString k) 0 0 k

/-- The strictly descending run `[top, top-1, ..., top-len+1]`. -/
def descFrom : Nat → Nat → List Nat
  | _, 0 => []
  | top, len + 1 => top :: descFrom (top - 1) len

/-- Rows are strictly descending by version number. -/
def DescRows (vs : List VersionRow) : Prop :=
  vs.Pairwise (fun a b => b.versionNumber < a.versionNumber)

/-! ## Backend: owner-scoped metadata registry
(src: the user_id migration scoping documents/folders/tags by `user_id`, the
REST API reference's "인증된 사용자의 데이터만" notes and its 404-on-mismatch
error contract). The backend query code itself (db/documents.rs, db/tags.rs,
db/search.rs) is not among the sources, so the operations below are modelled
from the spec's Metadata Registry contract. -/

/-- A row of the `documents` table after the user_id migration. -/
structure DocumentRow where
  id : String
  userId : Option String
  folderId : Option String
  title : String
  slug : String
  filePath : String
  wordCount : Nat
  charCount : Nat
  excerpt : Option String
  isPinned : Bool
  isArchived : Bool
deriving Repr, DecidableEq

/-- A row of the `folders` table after the user_id migration. -/
structure FolderRow where
  id : String
  userId : Option String
  parentId : Option String
  name : String
  slug : String
  sortOrder : Int
deriving Repr, DecidableEq

/-- The two storage substrates together: the SQLite tables and the `.md`
files on disk (path ↦ content). -/
structure Db where
  documents : List DocumentRow
  folders : List FolderRow
  tags : List TagRow
  documentTags : List (String × String)
  versions : List VersionRow
  files : List (String × String)
deriving Repr, DecidableEq

/-- Modelled from the spec: every Metadata Registry read of a document is
scoped `WHERE id = ? AND user_id = ?` (the backend query code is not among
the sources). -/
def owned_document (db : Db) (owner i : String) : Option DocumentRow :=
  db.documents.find? (fun r => r.id == i && r.userId == some owner)

/-- Modelled from the spec: `getDocument` reports an owner mismatch exactly
like an absent row — `NotFound`, never `Forbidden`. -/
def get_document (db : Db) (owner i : String) : Except AppError DocumentRow :=
  match owned_document db owner i with
  | some d => .ok d
  | none => .error .notFound

/-- Modelled from the spec: `GET /documents` returns only the caller's rows. -/
def list_documents (db : Db) (owner : String) : List DocumentRow :=
  db.documents.filter (fun r => r.userId == some owner)

/-- Patch shape of `PATCH /documents/:id`: absent fields stay unchanged. -/
structure UpdateDocumentPatch where
  title : Option String
  folderId : Option (Option String)
  isPinned : Option Bool
  isArchived : Option Bool
deriving Repr, DecidableEq

/-- Apply a document patch to one row. -/
def apply_document_patch (p : UpdateDocumentPatch) (r : DocumentRow) : DocumentRow :=
  { r with title := p.title.getD r.title,
           folderId := p.folderId.getD r.folderId,
           isPinned := p.isPinned.getD r.isPinned,
           isArchived := p.isArchived.getD r.isArchived }

/-- Modelled from the spec: `updateDocumentMeta` runs an owner-scoped
`UPDATE ... WHERE id = ? AND user_id = ?` and reports `NotFound` when no row
was affected. -/
def update_document (db : Db) (owner i : String) (p : UpdateDocumentPatch) :
    Except AppError Unit × Db :=
  let docs := db.documents.map
    (fun r => if r.id == i && r.userId == some owner then apply_document_patch p r else r)
  if db.documents.any (fun r => r.id == i && r.userId == some owner) then
    (.ok (), { db with documents := docs })
  else
    (.error .notFound, { db with documents := docs })

/-- Modelled from the spec: `deleteDocument` removes the owner-scoped row,
cascades to `document_tags` and `document_versions`, deletes the content
file, and reports `NotFound` when no row matched. -/
def delete_document (db : Db) (owner i : String) : Except AppError Unit × Db :=
  let removed := db.documents.filter (fun r => r.id == i && r.userId == some owner)
  let removedIds := removed.map DocumentRow.id
  let removedPaths := removed.map DocumentRow.filePath
  let db2 : Db := { db with
    documents := db.documents.filter (fun r => !(r.id == i && r.userId == some owner)),
    documentTags := db.documentTags.filter (fun e => !(removedIds.contains e.1)),
    versions := db.versions.filter (fun v => !(removedIds.contains v.documentId)),
    files := db.files.filter (fun f => !(removedPaths.contains f.1)) }
  if removed.isEmpty then (.error .notFound, db) else (.ok (), db2)

/-- Modelled from the spec: `getContent` resolves the owner-scoped row first,
then reads the file at its `content_path`. -/
def get_content (db : Db) (owner i : String) : Except AppError String :=
  match owned_document db owner i with
  | none => .error .notFound
  | some doc =>
      match db.files.lookup doc.filePath with
      | some content => .ok content
      | none => .error .notFound

/-- Word count of markdown content, as derived metadata. -/
def count_words (content : String) : Nat :=
  ((content.splitOn " ").filter (fun w => w ≠ "")).length

/-- Modelled from the spec: `setContent` resolves the owner-scoped row, then
writes the file and recomputes `word_count`/`char_count`/`excerpt`; a
mismatch aborts with `NotFound` before any write. -/
def set_content (db : Db) (owner i content : String) :
    Except AppError Unit × Db :=
  match owned_document db owner i with
  | none => (.error .notFound, db)
  | some doc =>
      let files2 :=
        if db.files.any (fun f => f.1 == doc.filePath) then
          db.files.map (fun f => if f.1 == doc.filePath then (f.1, content) else f)
        else (doc.filePath, content) :: db.files
      let docs2 := db.documents.map (fun r =>
        if r.id == i && r.userId == some owner then
          { r with wordCount := count_words content,
                   charCount := content.length,
                   excerpt := some (content.take 200) }
        else r)
      (.ok (), { db with files := files2, documents := docs2 })

/-- Modelled from the spec: `GET /documents/:id/versions` checks document
ownership first (404 "문서 없음 또는 권한 없음") and only then lists. -/
def list_versions_api (db : Db) (owner i : String) :
    Except AppError (List VersionRow) :=
  match owned_document db owner i with
  | none => .error .notFound
  | some _ => .ok (list_versions db.versions i)

/-- Modelled from the spec: `GET /versions/:id` resolves the version row and
then checks that its document belongs to the caller. -/
def get_version (db : Db) (owner vid : String) : Except AppError VersionRow :=
  match db.versions.find? (fun v => v.id == vid) with
  | none => .error .notFound
  | some v =>
      match owned_document db owner v.documentId with
      | none => .error .notFound
      | some _ => .ok v

/-- Modelled from the spec: `GET /folders` returns only the caller's rows. -/
def list_folders (db : Db) (owner : String) : List FolderRow :=
  db.folders.filter (fun r => r.userId == some owner)

/-- Patch shape of `PATCH /folders/:id`. -/
structure UpdateFolderPatch where
  name : Option String
  parentId : Option (Option String)
  sortOrder : Option Int
deriving Repr, DecidableEq

/-- Apply a folder patch to one row. -/
def apply_folder_patch (p : UpdateFolderPatch) (r : FolderRow) : FolderRow :=
  { r with name := p.name.getD r.name,
           parentId := p.parentId.getD r.parentId,
           sortOrder := p.sortOrder.getD r.sortOrder }

/-- Modelled from the spec: `PATCH /folders/:id` runs an owner-scoped update
and reports `NotFound` when no row was affected. (The cycle check on a parent
change is studied separately on the parent graph; see `updateFolderParent`.) -/
def update_folder (db : Db) (owner i : String) (p : UpdateFolderPatch) :
    Except AppError Unit × Db :=
  let folders2 := db.folders.map
    (fun r => if r.id == i && r.userId == some owner then apply_folder_patch p r else r)
  if db.folders.any (fun r => r.id == i && r.userId == some owner) then
    (.ok (), { db with folders := folders2 })
  else
    (.error .notFound, { db with folders := folders2 })

/-- Modelled from the spec: `DELETE /folders/:id` removes the owner-scoped
row; children folders and documents are detached by `ON DELETE SET NULL`. -/
def delete_folder (db : Db) (owner i : String) : Except AppError Unit × Db :=
  let removed := db.folders.filter (fun r => r.id == i && r.userId == some owner)
  let removedIds := removed.map FolderRow.id
  let db2 : Db := { db with
    folders := (db.folders.filter (fun r => !(r.id == i && r.userId == some owner))).map
      (fun r => if (match r.parentId with
                    | some q => removedIds.contains q
                    | none => false) then { r with parentId := none } else r),
    documents := db.documents.map
      (fun r => if (match r.folderId with
                    | some q => removedIds.contains q
                    | none => false) then { r with folderId := none } else r) }
  if removed.isEmpty then (.error .notFound, db) else (.ok (), db2)

/-- Modelled from the spec: `GET /tags` returns only the caller's rows. -/
def list_tags (db : Db) (owner : String) : List TagRow :=
  db.tags.filter (fun r => r.userId == some owner)

/-- Patch shape of `PATCH /tags/:id`. -/
structure UpdateTagPatch where
  name : Option String
  color : Option (Option String)
deriving Repr, DecidableEq

/-- Modelled from the spec: `PATCH /tags/:id` runs an owner-scoped update and
reports `NotFound` when no row was affected. -/
def update_tag (db : Db) (owner i : String) (p : UpdateTagPatch) :
    Except AppError Unit × Db :=
  let tags2 := db.tags.map
    (fun r => if r.id == i && r.userId == some owner then
        { r with name := p.name.getD r.name, color := p.color.getD r.color }
      else r)
  if db.tags.any (fun r => r.id == i && r.userId == some owner) then
    (.ok (), { db with tags := tags2 })
  else
    (.error .notFound, { db with tags := tags2 })

/-- Modelled from the spec: `DELETE /tags/:id` removes the owner-scoped row
and cascades to `document_tags`. -/
def delete_tag (db : Db) (owner i : String) : Except AppError Unit × Db :=
  let removed := db.tags.filter (fun r => r.id == i && r.userId == some owner)
  let removedIds := removed.map TagRow.id
  let db2 : Db := { db with
    tags := db.tags.filter (fun r => !(r.id == i && r.userId == some owner)),
    documentTags := db.documentTags.filter (fun e => !(removedIds.contains e.2)) }
  if removed.isEmpty then (.error .notFound, db) else (.ok (), db2)

/-! ## Backend: full-text search (src: the REST API reference `GET /search` —
relevance order, at most 50 results, owner-scoped, 400 on an empty query; the
`documents_fts` FTS5 table of the schema). The FTS query code (db/search.rs)
is not among the sources, so the operation is modelled from the spec with the
FTS5 relevance scorer abstracted as a parameter. -/

/-- A query is empty or whitespace-only: every character (none, for the empty
string) is whitespace. -/
def is_blank (q : String) : Bool := q.data.all Char.isWhitespace

/-- One search result as returned by `GET /search`. -/
structure SearchHit where
  id : String
  title : String
  excerpt : Option String
  rank : Int
deriving Repr, DecidableEq

/-- Ascending FTS5 rank: smaller (more negative) means more relevant. -/
def byRank (a b : SearchHit) : Prop := a.rank ≤ b.rank

instance : DecidableRel byRank := fun a b =>
  inferInstanceAs (Decidable (a.rank ≤ b.rank))

instance : IsTotal SearchHit byRank := ⟨fun a b => Int.le_total a.rank b.rank⟩

instance : IsTrans SearchHit byRank := ⟨fun _ _ _ h1 h2 => Int.le_trans h1 h2⟩

/-- Modelled from the spec: `query(owner_id, text, limit)` — an empty or
whitespace-only query is a validation error; otherwise the matching documents
of the owner are ranked by relevance (`score`, abstracting the FTS5 bm25
rank) and at most `min limit 50` results are returned. The backend search
code is not among the sources. -/
def search (score : String → DocumentRow → Option Int) (db : Db)
    (owner q : String) (limit : Nat) : Except AppError (List SearchHit) :=
  if is_blank q then .error (.badRequest "empty search query")
  else
    let hits := db.documents.filterMap (fun d =>
      if d.userId == some owner then
        (score q d).map (fun r =>
          { id := d.id, title := d.title, excerpt := d.excerpt, rank := r })
      else none)
    .ok ((List.insertionSort byRank hits).take (min limit 50))

/-! ## Backend: folder parent graph and the cycle check
(src: the `folders` schema with self-referencing `parent_id`, and
`PATCH /folders/:id` / `POST /folders` / `DELETE /folders/:id` of the REST API
reference). The write handlers themselves (routes/folders.rs) are not among
the sources, so the cycle check is modelled from the spec: "walk ancestors
before accepting a new `parent_id`"; the invariant under scrutiny is that the
parent chain never contains the folder itself. -/

/-- The folder parent graph: each folder id paired with its `parent_id`. -/
abbrev FolderGraph := List (String × Option String)

/-- The parent of folder `f`, when `f` exists and has one. -/
def parentOf (g : FolderGraph) (f : String) : Option String :=
  (g.lookup f).join

/-- Fuel-bounded ancestor walk: the folder `x` followed by the walk from its
parent, stopping at a root or when fuel runs out. -/
def chainF (g : FolderGraph) : Nat → String → List String
  | 0, _ => []
  | n + 1, x =>
      x :: (match parentOf g x with
            | some p => chainF g n p
            | none => [])

/-- Modelled from the spec: the write-time cycle check — walk the ancestors of
the proposed parent `p` (fuel one more than the table size, enough to cover
every ancestor) and reject when the chain would contain the folder itself. -/
def creates_cycle (g : FolderGraph) (f p : String) : Bool :=
  (chainF g (g.length + 1) p).contains f

/-- Point `f`'s `parent_id` at `p`, leaving every other row unchanged. -/
def setParent (g : FolderGraph) (f : String) (p : Option String) : FolderGraph :=
  g.map (fun e => if e.1 == f then (e.1, p) else e)

/-- Modelled from the spec: the parent-changing part of `PATCH /folders/:id` —
the row must exist, a non-null new parent must exist (foreign key), and the
ancestor walk must not find the folder itself. -/
def updateFolderParent (g : FolderGraph) (f : String) (p : Option String) :
    Except AppError FolderGraph :=
  if (g.lookup f).isNone then .error .notFound
  else match p with
    | none => .ok (setParent g f none)
    | some q =>
        if (g.lookup q).isNone then .error .databaseError
        else if creates_cycle g f q then .error (.conflict "folder cycle")
        else .ok (setParent g f (some q))

/-- Modelled from the spec: `POST /folders` — fresh primary key, existing
parent when given. -/
def createFolder (g : FolderGraph) (f : String) (p : Option String) :
    Except AppError FolderGraph :=
  if (g.lookup f).isSome then .error (.conflict "folders.id")
  else match p with
    | none => .ok ((f, none) :: g)
    | some q =>
        if (g.lookup q).isNone then .error .databaseError
        else .ok ((f, some q) :: g)

/-- Remove folder `f` and detach its children (`ON DELETE SET NULL`). -/
def removeFolder (g : FolderGraph) (f : String) : FolderGraph :=
  (g.filter (fun e => !(e.1 == f))).map
    (fun e => if e.2 == some f then (e.1, none) else e)

/-- Modelled from the spec: `DELETE /folders/:id`. -/
def deleteFolder (g : FolderGraph) (f : String) : Except AppError FolderGraph :=
  if (g.lookup f).isNone then .error .notFound
  else .ok (removeFolder g f)

/-- One parent edge: `b` is the parent of `a`. -/
def ParentStep (g : FolderGraph) (a b : String) : Prop :=
  parentOf g a = some b

/-- The folder parent graph contains no cycle: no folder reaches itself by a
nonempty chain of parent edges. -/
def AcyclicGraph (g : FolderGraph) : Prop :=
  ∀ f, ¬ Relation.TransGen (ParentStep g) f f

/-- Folder ids are unique (primary key). -/
def NodupKeys (g : FolderGraph) : Prop :=
  (g.map Prod.fst).Nodup

/-- Every `parent_id` references an existing folder (foreign key). -/
def ClosedParents (g : FolderGraph) : Prop :=
  ∀ a b, parentOf g a = some b → b ∈ g.map Prod.fst

/-- The folder-table invariant maintained by the write operations. -/
def GraphInv (g : FolderGraph) : Prop :=
  NodupKeys g ∧ ClosedParents g ∧ AcyclicGraph g

/-- Iterated parent: the `n`-th ancestor of `x`, when the chain is long
enough. -/
def iterParent (g : FolderGraph) : Nat → String → Option String
  | 0, x => some x
  | n + 1, x =>
      match parentOf g x with
      | some p => iterParent g n p
      | none => none

/-- The folder-graph states reachable from an empty table through the write
operations. -/
inductive ReachableGraph : FolderGraph → Prop where
  | empty : ReachableGraph []
  | create (g : FolderGraph) (f : String) (p : Option String) (g2 : FolderGraph) :
      ReachableGraph g → createFolder g f p = .ok g2 → ReachableGraph g2
  | update (g : FolderGraph) (f : String) (p : Option String) (g2 : FolderGraph) :
      ReachableGraph g → updateFolderParent g f p = .ok g2 → ReachableGraph g2
  | delete (g : FolderGraph) (f : String) (g2 : FolderGraph) :
      ReachableGraph g → deleteFolder g f = .ok g2 → ReachableGraph g2

/-- Two consecutive burst updates: strictly later, but less than 1000 ms apart. -/
def BurstGap (a b : Nat × String) : Prop :=
  a.1 < b.1 ∧ b.1 < a.1 + 1000

instance : DecidableRel BurstGap := fun a b =>
  inferInstanceAs (Decidable (a.1 < b.1 ∧ b.1 < a.1 + 1000))

end Tecindo

namespace Tecindo

/-! ## Theorems -/

/-- C1 counterexample: on a successful create at a concrete input the create
succeeds, yet the first storage operation in the trace is the Content Store's
empty-file write — the Metadata Registry row is not inserted first, contrary
to the claimed commit order. -/
theorem create_document_file_written_before_insert :
    (create_document { rows := [], files := [] } "d1" "untitled-01.md"
        true true).1 = .ok ()
    ∧ insertedFirst
        (create_document { rows := [], files := [] } "d1" "untitled-01.md"
          true true).2.2 = false := by
  exact ⟨rfl, rfl⟩

/-- C1 (amended): `create_document` writes the empty content file first and
inserts the metadata row second; a failed file write aborts before any
metadata insert and surfaces `Io`; a failed insert surfaces `Database` and
leaves the already-written file as a harmless orphan with no metadata row; in
every case no metadata row remains whose content file was never created. -/
theorem create_document_order_and_postcondition (st : CreateState)
    (docId filePath : String) (writeOk insertOk : Bool)
    (hinv : FilesCoverRows st) :
    ((create_document st docId filePath writeOk insertOk).2.2 =
       if writeOk then
         .writeFile filePath ::
           (if insertOk then [.insertRow docId filePath] else [])
       else [])
    ∧ (writeOk = false →
        (create_document st docId filePath writeOk insertOk).1 = .error .ioError
        ∧ (create_document st docId filePath writeOk insertOk).2.1 = st)
    ∧ (writeOk = true → insertOk = false →
        (create_document st docId filePath writeOk insertOk).1
            = .error .databaseError
        ∧ ((create_document st docId filePath writeOk insertOk).2.1).rows = st.rows
        ∧ ((create_document st docId filePath writeOk insertOk).2.1).files
            = filePath :: st.files)
    ∧ FilesCoverRows (create_document st docId filePath writeOk insertOk).2.1 := by
  cases writeOk with
  | false =>
      refine ⟨by simp [create_document], fun _ => ⟨rfl, rfl⟩,
              fun h => absurd h (by simp), ?_⟩
      simpa [create_document] using hinv
  | true =>
      cases insertOk with
      | false =>
          refine ⟨by simp [create_document], fun h => absurd h (by simp),
                  fun _ _ => ⟨rfl, rfl, rfl⟩, ?_⟩
          intro r hr
          simp only [create_document, Bool.not_true, Bool.false_eq_true,
            if_false] at hr ⊢
          exact List.mem_cons_of_mem _ (hinv r hr)
      | true =>
          refine ⟨by simp [create_document], fun h => absurd h (by simp),
                  fun _ h => absurd h (by simp), ?_⟩
          intro r hr
          simp only [create_document, Bool.not_true, Bool.false_eq_true,
            if_false] at hr ⊢
          rcases List.mem_cons.mp hr with h | h
          · subst h; exact List.mem_cons_self _ _
          · exact List.mem_cons_of_mem _ (hinv r h)

/-- C3: evaluating the tag-insert path at the failing input. Owner A creates
tag "work"; owner B then creates a tag of the same name and is rejected with
`Conflict` by the table-level `UNIQUE (name)` constraint of `001_initial.sql`,
which the user_id migration never dropped — so tag name uniqueness is in fact
global, although the migration's own comment says it is being changed to
per-owner. A same-owner duplicate is likewise rejected. -/
theorem tag_name_unique_globally_not_per_owner :
    insertTag [] { id := "t1", userId := some "A", name := "work", color := none }
      = .ok [{ id := "t1", userId := some "A", name := "work", color := none }]
    ∧ insertTag
        [{ id := "t1", userId := some "A", name := "work", color := none }]
        { id := "t2", userId := some "B", name := "work", color := none }
      = .error (.conflict "tags.name")
    ∧ insertTag
        [{ id := "t1", userId := some "A", name := "work", color := none }]
        { id := "t3", userId := some "A", name := "work", color := none }
      = .error (.conflict "tags.name") := by
  exact ⟨rfl, rfl, rfl⟩

/-- Witness for `create_document_order_and_postcondition`: after a successful
concrete create from the empty state, every metadata row's file exists. -/
theorem create_document_order_and_postcondition_witness :
    FilesCoverRows
      (create_document { rows := [], files := [] } "d1" "untitled-01.md"
        true true).2.1 :=
  (create_document_order_and_postcondition { rows := [], files := [] }
    "d1" "untitled-01.md" true true (by simp [FilesCoverRows])).2.2.2

/-- Every member of a list of naturals is bounded by its `foldr max 0`. -/
theorem le_foldr_max {l : List Nat} {a : Nat} (h : a ∈ l) : a ≤ l.foldr max 0 := by
  induction l with
  | nil => cases h
  | cons b t ih =>
      rcases List.mem_cons.mp h with rfl | h
      · exact Nat.le_max_left _ _
      · exact Nat.le_trans (ih h) (Nat.le_max_right _ _)

/-- The next version number strictly exceeds every version number the document
already has, so no number is ever reused. -/
theorem next_version_number_gt (versions : List VersionRow) (d : String) :
    ∀ v ∈ versions, v.documentId = d →
      v.versionNumber < next_version_number versions d := by
  intro v hv hd
  have hmem : v.versionNumber
      ∈ (doc_versions versions d).map VersionRow.versionNumber := by
    refine List.mem_map.mpr ⟨v, ?_, rfl⟩
    simp [doc_versions, List.mem_filter, hv, hd]
  have hle := le_foldr_max hmem
  unfold next_version_number
  omega

/-- `list_versions` output is sorted newest-first (weak order). -/
theorem list_versions_sorted (versions : List VersionRow) (d : String) :
    List.Sorted byVersionDesc (list_versions versions d) :=
  List.sorted_insertionSort byVersionDesc (doc_versions versions d)

/-- When the document's version numbers are distinct (as the schema's
`UNIQUE(document_id, version_number)` guarantees), the listing is strictly
descending. -/
theorem list_versions_strict_desc (versions : List VersionRow) (d : String)
    (hnodup : ((doc_versions versions d).map VersionRow.versionNumber).Nodup) :
    DescRows (list_versions versions d) := by
  have hsorted := list_versions_sorted versions d
  have hperm : List.Perm (list_versions versions d) (doc_versions versions d) :=
    List.perm_insertionSort byVersionDesc (doc_versions versions d)
  have hnodup2 : ((list_versions versions d).map VersionRow.versionNumber).Nodup :=
    (hperm.map VersionRow.versionNumber).nodup_iff.mpr hnodup
  have hne : (list_versions versions d).Pairwise
      (fun a b => a.versionNumber ≠ b.versionNumber) :=
    (List.pairwise_map).mp hnodup2
  have hand := hsorted.and hne
  exact hand.imp (fun h => Nat.lt_of_le_of_ne h.1 (Ne.symm h.2))

/-- C4 counterexample: after two snapshots of one document the version listing
is `[2, 1]` — newest first — which is not strictly increasing, contrary to the
claim's wording. -/
theorem list_versions_not_strictly_increasing :
    ((list_versions
        (insert_version (insert_version [] "v1" "d" "a" 0 0 0) "v2" "d" "b" 0 0 1)
        "d").map VersionRow.versionNumber = [2, 1])
    ∧ ¬ List.Chain' (fun a b => a < b) [2, 1] := by
  exact ⟨rfl, fun h => absurd (List.chain'_cons.mp h).1 (by omega)⟩

/-- C4 (amended): a new snapshot is assigned `1 + max(existing version_number
for this document, default 0)`, strictly greater than every existing number of
that document (never reused); given the schema's per-document uniqueness of
version numbers, `list_versions` is strictly *decreasing* (newest first); and
deleting any set of versions leaves the remaining listing exactly as before
with the deleted rows dropped — remaining numbers keep their original values
and order. -/
theorem version_numbering (versions : List VersionRow) (d : String)
    (ids : List String)
    (hnodup : ((doc_versions versions d).map VersionRow.versionNumber).Nodup) :
    (∀ v ∈ versions, v.documentId = d →
       v.versionNumber < next_version_number versions d)
    ∧ DescRows (list_versions versions d)
    ∧ list_versions (delete_versions versions ids) d
        = (list_versions versions d).filter (fun v => !(ids.contains v.id)) := by
  refine ⟨next_version_number_gt versions d, list_versions_strict_desc versions d hnodup, ?_⟩
  have hsub : doc_versions (delete_versions versions ids) d
      = (doc_versions versions d).filter (fun v => !(ids.contains v.id)) := by
    simp only [doc_versions, delete_versions, List.filter_filter]
    congr 1
    funext v
    exact Bool.and_comm _ _
  have hnodupdel :
      ((doc_versions (delete_versions versions ids) d).map
        VersionRow.versionNumber).Nodup := by
    rw [hsub]
    exact (List.Sublist.map VersionRow.versionNumber
      (List.filter_sublist _)).nodup hnodup
  have hL : DescRows (list_versions (delete_versions versions ids) d) :=
    list_versions_strict_desc _ d hnodupdel
  have hR : DescRows
      ((list_versions versions d).filter (fun v => !(ids.contains v.id))) :=
    (list_versions_strict_desc versions d hnodup).filter _
  have hperm : List.Perm (list_versions (delete_versions versions ids) d)
      ((list_versions versions d).filter (fun v => !(ids.contains v.id))) := by
    refine (List.perm_insertionSort _ _).trans ?_
    rw [hsub]
    exact ((List.perm_insertionSort byVersionDesc
      (doc_versions versions d)).symm).filter _
  exact List.eq_of_perm_of_sorted hperm hL hR

/-- Witness for `version_numbering` at a concrete two-version state with one
deleted version. -/
theorem version_numbering_witness :
    list_versions
        (delete_versions
          (insert_version (insert_version [] "v1" "d" "a" 0 0 0) "v2" "d" "b" 0 0 1)
          ["v1"])
        "d"
      = (list_versions
          (insert_version (insert_version [] "v1" "d" "a" 0 0 0) "v2" "d" "b" 0 0 1)
          "d").filter (fun v => !(["v1"].contains v.id)) :=
  (version_numbering
    (insert_version (insert_version [] "v1" "d" "a" 0 0 0) "v2" "d" "b" 0 0 1)
    "d" ["v1"] (by decide)).2.2

/-- Unfolding `minVN` on a list of at least two rows. -/
theorem minVN_cons₂ (v a : VersionRow) (t : List VersionRow) :
    minVN (v :: a :: t) = min v.versionNumber (minVN (a :: t)) := rfl

/-- The smallest version number of a nonempty row list is one of its numbers. -/
theorem minVN_mem : ∀ (vs : List VersionRow), vs ≠ [] →
    minVN vs ∈ vs.map VersionRow.versionNumber := by
  intro vs
  induction vs with
  | nil => intro h; exact absurd rfl h
  | cons v rest ih =>
      intro _
      cases rest with
      | nil => simp [minVN]
      | cons a t =>
          have hmem := ih (by simp)
          rw [minVN_cons₂]
          rcases Nat.le_total v.versionNumber (minVN (a :: t)) with h | h
          · rw [Nat.min_eq_left h]; simp
          · rw [Nat.min_eq_right h]
            exact List.mem_cons_of_mem _ hmem

/-- On a nonempty strictly-descending row list, all of whose rows belong to
document `d`, erasing the row carrying the smallest version number removes
exactly the last row. -/
theorem eraseP_min_eq_dropLast (d : String) :
    ∀ (vs : List VersionRow) (m : Nat), vs ≠ [] →
      (∀ v ∈ vs, v.documentId = d) → DescRows vs → m = minVN vs →
      vs.eraseP (fun u => u.documentId == d && u.versionNumber == m)
        = vs.dropLast := by
  intro vs
  induction vs with
  | nil => intro m h; exact absurd rfl h
  | cons v rest ih =>
      intro m _ hall hdesc hm
      cases rest with
      | nil =>
          have hd : v.documentId = d := hall v (by simp)
          have hmv : m = v.versionNumber := hm
          simp [List.eraseP_cons, hd, hmv]
      | cons a t =>
          have hd : v.documentId = d := hall v (by simp)
          obtain ⟨u, hu, hueq⟩ :=
            List.mem_map.mp (minVN_mem (a :: t) (by simp))
          have hult : u.versionNumber < v.versionNumber :=
            (List.pairwise_cons.mp hdesc).1 u hu
          have hlt : minVN (a :: t) < v.versionNumber := by omega
          have hm2 : m = minVN (a :: t) := by
            rw [hm, minVN_cons₂, Nat.min_eq_right (Nat.le_of_lt hlt)]
          have hpv : (v.documentId == d && v.versionNumber == m) = false := by
            simp [hd, hm2]
            omega
          simp only [List.eraseP_cons, hpv, cond_false, List.dropLast_cons₂]
          congr 1
          exact ih m (by simp) (fun w hw => hall w (List.mem_cons_of_mem _ hw))
            ((List.pairwise_cons.mp hdesc).2) hm2

/-- A list in which every row belongs to document `d` is its own
`doc_versions`. -/
theorem doc_versions_eq_self {vs : List VersionRow} {d : String}
    (h : ∀ v ∈ vs, v.documentId = d) : doc_versions vs d = vs :=
  List.filter_eq_self.mpr fun v hv => by simp [h v hv]

/-- With enough fuel, the retention loop on a strictly-descending
single-document list keeps exactly the newest `maxV` rows. -/
theorem enforce_retention_aux_take (maxV : Nat) (d : String) :
    ∀ (fuel : Nat) (vs : List VersionRow), (∀ v ∈ vs, v.documentId = d) →
      DescRows vs → vs.length ≤ maxV + fuel →
      enforce_retention_aux maxV d fuel vs = vs.take maxV := by
  intro fuel
  induction fuel with
  | zero =>
      intro vs _ _ hlen
      simp only [enforce_retention_aux]
      exact (List.take_of_length_le (by omega)).symm
  | succ fuel ih =>
      intro vs hall hdesc hlen
      simp only [enforce_retention_aux]
      by_cases hc : (doc_versions vs d).length ≤ maxV
      · rw [if_pos hc]
        rw [doc_versions_eq_self hall] at hc
        exact (List.take_of_length_le hc).symm
      · rw [if_neg hc]
        rw [doc_versions_eq_self hall] at hc
        push_neg at hc
        have hne : vs ≠ [] := by
          intro h
          rw [h] at hc
          simp at hc
        have hro : remove_oldest_of vs d = vs.dropLast := by
          unfold remove_oldest_of
          rw [doc_versions_eq_self hall]
          exact eraseP_min_eq_dropLast d vs (minVN vs) hne hall hdesc rfl
        rw [hro,
          ih vs.dropLast
            (fun w hw => hall w ((List.dropLast_sublist vs).subset hw))
            (List.Pairwise.sublist (List.dropLast_sublist vs) hdesc)
            (by rw [List.length_dropLast]; omega),
          List.dropLast_eq_take, List.take_take]
        congr 1
        omega

/-- `enforce_retention` on a strictly-descending single-document list keeps
exactly the newest `maxV` rows. -/
theorem enforce_retention_take (maxV : Nat) (d : String) (vs : List VersionRow)
    (hall : ∀ v ∈ vs, v.documentId = d) (hdesc : DescRows vs) :
    enforce_retention maxV d vs = vs.take maxV :=
  enforce_retention_aux_take maxV d vs.length vs hall hdesc (by omega)

/-- `descFrom` produces a run of the requested length. -/
theorem descFrom_length : ∀ (top len : Nat), (descFrom top len).length = len := by
  intro top len
  induction len generalizing top with
  | zero => rfl
  | succ len ih => simp [descFrom, ih]

/-- Members of `descFrom top len` are bounded by `top`. -/
theorem mem_descFrom : ∀ (top len x : Nat), x ∈ descFrom top len → x ≤ top := by
  intro top len
  induction len generalizing top with
  | zero => intro x h; cases h
  | succ len ih =>
      intro x h
      rcases List.mem_cons.mp h with rfl | h
      · exact Nat.le_refl _
      · exact Nat.le_trans (ih (top - 1) x h) (Nat.sub_le _ _)

/-- `descFrom top len` is strictly descending whenever it does not run past
zero. -/
theorem descFrom_pairwise : ∀ (top len : Nat), len ≤ top + 1 →
    (descFrom top len).Pairwise (fun a b => b < a) := by
  intro top len
  induction len generalizing top with
  | zero => intro _; exact List.Pairwise.nil
  | succ len ih =>
      intro hle
      refine List.pairwise_cons.mpr ⟨fun x hx => ?_, ih (top - 1) (by omega)⟩
      have hxle := mem_descFrom (top - 1) len x hx
      have hpos : 1 ≤ len → 1 ≤ top := by
        intro h1
        cases len with
        | zero => omega
        | succ l => omega
      cases len with
      | zero => cases hx
      | succ l => have := hpos (by omega); omega

/-- `foldr max 0` of a list is bounded by any bound on its members. -/
theorem foldr_max_le {l : List Nat} {b : Nat} (h : ∀ x ∈ l, x ≤ b) :
    l.foldr max 0 ≤ b := by
  induction l with
  | nil => exact Nat.zero_le _
  | cons a t ih =>
      simp only [List.foldr_cons]
      exact Nat.max_le.mpr ⟨h a (by simp), ih fun x hx => h x (List.mem_cons_of_mem _ hx)⟩

/-- The maximum of a nonempty strictly-descending run is its head. -/
theorem descFrom_foldr_max : ∀ (top len : Nat), 1 ≤ len → len ≤ top + 1 →
    (descFrom top len).foldr max 0 = top := by
  intro top len h1 _
  cases len with
  | zero => omega
  | succ l =>
      simp only [descFrom, List.foldr_cons]
      have hb : (descFrom (top - 1) l).foldr max 0 ≤ top :=
        foldr_max_le fun x hx =>
          Nat.le_trans (mem_descFrom (top - 1) l x hx) (Nat.sub_le _ _)
      exact Nat.max_eq_left hb

/-- Taking a prefix of a descending run shortens it. -/
theorem take_descFrom : ∀ (n top len : Nat),
    (descFrom top len).take n = descFrom top (min n len) := by
  intro n
  induction n with
  | zero => intro top len; simp [descFrom]
  | succ n ih =>
      intro top len
      cases len with
      | zero => simp [descFrom]
      | succ len =>
          simp only [descFrom, List.take_succ_cons, Nat.succ_min_succ]
          rw [ih]

/-- Characterization of the version table after `k` snapshot-qualifying edits
of document `d`: all rows belong to `d` and the version numbers are exactly
the newest `min k maxV` values `k, k-1, ...`. -/
theorem snapshotIter_spec (maxV : Nat) (d : String) :
    ∀ k, (∀ v ∈ snapshotIter maxV d k, v.documentId = d)
      ∧ (snapshotIter maxV d k).map VersionRow.versionNumber
          = descFrom k (min k maxV) := by
  intro k
  induction k with
  | zero => exact ⟨by simp [snapshotIter], by simp [snapshotIter, descFrom]⟩
  | succ k ih =>
      obtain ⟨hall, hnums⟩ := ih
      have hdoc : doc_versions (snapshotIter maxV d k) d = snapshotIter maxV d k :=
        doc_versions_eq_self hall
      have hnext : next_version_number (snapshotIter maxV d k) d
          = 1 + (descFrom k (min k maxV)).foldr max 0 := by
        unfold next_version_number
        rw [hdoc, hnums]
      obtain ⟨row, hrowd, hrowvn, hrun⟩ :
          ∃ row : VersionRow, row.documentId = d
            ∧ row.versionNumber = next_version_number (snapshotIter maxV d k) d
            ∧ snapshotIter maxV d (k + 1)
                = enforce_retention maxV d (row :: snapshotIter maxV d k) :=
        ⟨{ id := "v" ++ toString k, documentId := d,
           versionNumber := next_version_number (snapshotIter maxV d k) d,
           content := "content " ++ toString k, wordCount := 0,
           charCount := 0, createdAt := k }, rfl, rfl, rfl⟩
      rcases Nat.eq_zero_or_pos maxV with rfl | hmpos
      · have h0 : List.map VersionRow.versionNumber (snapshotIter 0 d k) = [] := by
          rw [hnums]
          simp [descFrom]
        have hst_nil : snapshotIter 0 d k = [] := List.map_eq_nil_iff.mp h0
        have hret : ∀ x : VersionRow, x.documentId = d →
            enforce_retention 0 d [x] = [] := by
          intro x hx
          rw [enforce_retention_take 0 d [x]
            (by intro v hv
                rcases List.mem_cons.mp hv with rfl | hv
                · exact hx
                · cases hv)
            (List.pairwise_singleton _ _)]
          rfl
        rw [hrun, hst_nil, hret row hrowd]
        refine ⟨by simp, ?_⟩
        simp [descFrom]
      · have hfold : (descFrom k (min k maxV)).foldr max 0 = k := by
          rcases Nat.eq_zero_or_pos k with rfl | hk
          · simp [descFrom]
          · exact descFrom_foldr_max k (min k maxV) (by omega) (by omega)
        have hnumsL : (row :: snapshotIter maxV d k).map VersionRow.versionNumber
            = descFrom (k + 1) (min k maxV + 1) := by
          simp only [List.map_cons, hnums, hrowvn, hnext, hfold, descFrom,
            Nat.add_sub_cancel]
          rw [Nat.add_comm 1 k]
        have hallL : ∀ v ∈ row :: snapshotIter maxV d k, v.documentId = d := by
          intro v hv
          rcases List.mem_cons.mp hv with rfl | hv
          · exact hrowd
          · exact hall v hv
        have hdescL : DescRows (row :: snapshotIter maxV d k) := by
          have hp := descFrom_pairwise (k + 1) (min k maxV + 1) (by omega)
          rw [← hnumsL] at hp
          exact List.pairwise_map.mp hp
        rw [hrun, enforce_retention_take maxV d _ hallL hdescL]
        constructor
        · intro v hv
          exact hallL v (List.take_subset _ _ hv)
        · rw [List.map_take, hnumsL, take_descFrom]
          congr 1
          omega

/-- C5: after `N` snapshot-qualifying edits with `N` greater than the
configured maximum, `listVersions` returns exactly `maxV` entries whose
version numbers are the most recent `maxV` values `N, N-1, ..., N-maxV+1`. -/
theorem version_retention_cap (maxV N : Nat) (d : String) (hN : maxV < N) :
    ((list_versions (snapshotIter maxV d N) d).map VersionRow.versionNumber
        = descFrom N maxV)
    ∧ (list_versions (snapshotIter maxV d N) d).length = maxV := by
  obtain ⟨hall, hnums⟩ := snapshotIter_spec maxV d N
  have hmin : min N maxV = maxV := by omega
  rw [hmin] at hnums
  have hdesc : DescRows (snapshotIter maxV d N) := by
    have hp := descFrom_pairwise N maxV (by omega)
    rw [← hnums] at hp
    exact List.pairwise_map.mp hp
  have hsorted : List.Sorted byVersionDesc (snapshotIter maxV d N) :=
    hdesc.imp fun h => Nat.le_of_lt h
  have hlist : list_versions (snapshotIter maxV d N) d = snapshotIter maxV d N := by
    unfold list_versions
    rw [doc_versions_eq_self hall]
    exact hsorted.insertionSort_eq
  rw [hlist]
  refine ⟨hnums, ?_⟩
  have := congrArg List.length hnums
  rwa [List.length_map, descFrom_length] at this

/-- Witness for `version_retention_cap`: three qualifying edits under a cap of
two. -/
theorem version_retention_cap_witness :
    ((list_versions (snapshotIter 2 "d" 3) "d").map VersionRow.versionNumber
        = descFrom 3 2)
    ∧ (list_versions (snapshotIter 2 "d" 3) "d").length = 2 :=
  version_retention_cap 2 3 "d" (by omega)

/-- C7: `search` rejects an empty or whitespace-only query with a validation
error instead of matching everything; a successful search returns at most
`limit` results and at most 50, sorted by ascending FTS5 rank (most relevant
first), and every hit comes from a matching document owned by the caller. -/
theorem search_contract (score : String → DocumentRow → Option Int) (db : Db)
    (owner q : String) (limit : Nat) :
    (is_blank q = true →
       search score db owner q limit = .error (.badRequest "empty search query"))
    ∧ (∀ hits, search score db owner q limit = .ok hits →
        hits.length ≤ limit ∧ hits.length ≤ 50
        ∧ hits.Pairwise byRank
        ∧ ∀ h ∈ hits, ∃ d ∈ db.documents,
            d.userId = some owner ∧ h.id = d.id ∧ score q d = some h.rank) := by
  constructor
  · intro hq
    simp [search, hq]
  · intro hits hok
    by_cases hq : is_blank q = true
    · simp [search, hq] at hok
    · simp only [search, if_neg hq] at hok
      have hx := Except.ok.inj hok
      subst hx
      refine ⟨Nat.le_trans (List.length_take_le _ _) (Nat.min_le_left _ _),
              Nat.le_trans (List.length_take_le _ _) (Nat.min_le_right _ _),
              List.Pairwise.sublist (List.take_sublist _ _)
                (List.sorted_insertionSort byRank _), ?_⟩
      intro h hh
      have hsort : h ∈ List.insertionSort byRank (db.documents.filterMap (fun d =>
          if d.userId == some owner then
            (score q d).map (fun r =>
              { id := d.id, title := d.title, excerpt := d.excerpt, rank := r })
          else none)) := List.take_subset _ _ hh
      have hmem := (List.perm_insertionSort byRank _).subset hsort
      obtain ⟨d, hd, heq⟩ := List.mem_filterMap.mp hmem
      by_cases hown : d.userId == some owner
      · rw [if_pos hown] at heq
        obtain ⟨r, hr, hg⟩ := Option.map_eq_some'.mp heq
        subst hg
        exact ⟨d, hd, by simpa using hown, rfl, hr⟩
      · rw [if_neg hown] at heq
        cases heq

/-- Witness for `search_contract`: a concrete one-document search under a
title-match scorer returns the owner's document. -/
theorem search_contract_witness :
    search (fun q d => if d.title = q then some (-1) else none)
        { documents := [{ id := "d1", userId := some "alice", folderId := none,
                          title := "hello", slug := "hello", filePath := "hello.md",
                          wordCount := 0, charCount := 0, excerpt := none,
                          isPinned := false, isArchived := false }],
          folders := [], tags := [], documentTags := [], versions := [], files := [] }
        "alice" "hello" 10
      = .ok [{ id := "d1", title := "hello", excerpt := none, rank := -1 }]
    ∧ ([{ id := "d1", title := "hello", excerpt := none, rank := -1 }]
        : List SearchHit).length ≤ 10 := by
  constructor
  · rfl
  · exact ((search_contract (fun q d => if d.title = q then some (-1) else none)
      { documents := [{ id := "d1", userId := some "alice", folderId := none,
                        title := "hello", slug := "hello", filePath := "hello.md",
                        wordCount := 0, charCount := 0, excerpt := none,
                        isPinned := false, isArchived := false }],
        folders := [], tags := [], documentTags := [], versions := [], files := [] }
      "alice" "hello" 10).2
      [{ id := "d1", title := "hello", excerpt := none, rank := -1 }] rfl).1

/-- When ids are unique and a row belongs to owner `B ≠ A`, no row satisfies
the owner-scoped predicate `id = ? AND user_id = A` for that row's id. -/
theorem owned_pred_false {ρ : Type} (getId : ρ → String)
    (getOwner : ρ → Option String) {rows : List ρ} {A B : String}
    (hAB : A ≠ B) (hnodup : (rows.map getId).Nodup) {row : ρ}
    (hrow : row ∈ rows) (hown : getOwner row = some B) :
    ∀ r ∈ rows, ¬ ((getId r == getId row && getOwner r == some A) = true) := by
  intro r hr hc
  simp only [Bool.and_eq_true, beq_iff_eq] at hc
  obtain ⟨hrid, hrown⟩ := hc
  have heq : r = row := List.inj_on_of_nodup_map hnodup hr hrow hrid
  rw [heq, hown] at hrown
  exact hAB (Option.some.inj hrown).symm

/-- A conditional row update whose condition never holds is the identity. -/
theorem map_guard_id {ρ : Type} (f : ρ → ρ) (p : ρ → Bool) {rows : List ρ}
    (h : ∀ r ∈ rows, ¬ p r = true) :
    rows.map (fun r => if p r then f r else r) = rows := by
  have h2 : rows.map (fun r => if p r then f r else r) = rows.map id :=
    List.map_congr_left (fun r hr => by rw [if_neg (h r hr)]; rfl)
  rw [h2, List.map_id]

/-- C2: for distinct owners `A ≠ B`, every operation invoked under `A`'s
identity on a document, folder or tag owned by `B` — get, list, update,
delete, content read/write, version listing, single-version fetch — performs
no mutation and fails with `NotFound` (never `Forbidden`). -/
theorem owner_isolation (db : Db) (A B : String) (hAB : A ≠ B) :
    (∀ doc ∈ db.documents, (db.documents.map DocumentRow.id).Nodup →
       doc.userId = some B →
         get_document db A doc.id = .error .notFound
       ∧ doc ∉ list_documents db A
       ∧ (∀ p, update_document db A doc.id p = (.error .notFound, db))
       ∧ delete_document db A doc.id = (.error .notFound, db)
       ∧ get_content db A doc.id = .error .notFound
       ∧ (∀ c, set_content db A doc.id c = (.error .notFound, db))
       ∧ list_versions_api db A doc.id = .error .notFound
       ∧ (∀ v ∈ db.versions, (db.versions.map VersionRow.id).Nodup →
            v.documentId = doc.id → get_version db A v.id = .error .notFound))
    ∧ (∀ f ∈ db.folders, (db.folders.map FolderRow.id).Nodup →
       f.userId = some B →
         f ∉ list_folders db A
       ∧ (∀ p, update_folder db A f.id p = (.error .notFound, db))
       ∧ delete_folder db A f.id = (.error .notFound, db))
    ∧ (∀ t ∈ db.tags, (db.tags.map TagRow.id).Nodup →
       t.userId = some B →
         t ∉ list_tags db A
       ∧ (∀ p, update_tag db A t.id p = (.error .notFound, db))
       ∧ delete_tag db A t.id = (.error .notFound, db)) := by
  refine ⟨?_, ?_, ?_⟩
  · intro doc hdoc hnodup hown
    have hpred := owned_pred_false DocumentRow.id DocumentRow.userId hAB hnodup hdoc hown
    have hfind : owned_document db A doc.id = none := by
      unfold owned_document
      exact List.find?_eq_none.mpr hpred
    refine ⟨?_, ?_, ?_, ?_, ?_, ?_, ?_, ?_⟩
    · unfold get_document
      rw [hfind]
    · intro hmem
      have h2 := (List.mem_filter.mp hmem).2
      rw [beq_iff_eq, hown] at h2
      exact hAB (Option.some.inj h2).symm
    · intro p
      have hany : db.documents.any
          (fun r => r.id == doc.id && r.userId == some A) = false :=
        List.any_eq_false.mpr hpred
      have hmap := map_guard_id (apply_document_patch p)
        (fun r => r.id == doc.id && r.userId == some A) hpred
      simp only [update_document, hany, hmap, Bool.false_eq_true, if_false]
    · have hremoved : db.documents.filter
          (fun r => r.id == doc.id && r.userId == some A) = [] :=
        List.filter_eq_nil_iff.mpr hpred
      simp only [delete_document, hremoved, List.isEmpty_nil, if_true]
    · unfold get_content
      rw [hfind]
    · intro c
      unfold set_content
      rw [hfind]
    · unfold list_versions_api
      rw [hfind]
    · intro v hv hvnodup hvdoc
      unfold get_version
      cases hfindv : db.versions.find? (fun u => u.id == v.id) with
      | none => rfl
      | some u =>
          have hu := List.mem_of_find?_eq_some hfindv
          have hup := List.find?_some hfindv
          rw [beq_iff_eq] at hup
          have huv : u = v := List.inj_on_of_nodup_map hvnodup hu hv hup
          have hnone : owned_document db A v.documentId = none := by
            rw [hvdoc]
            exact hfind
          rw [huv]
          simp [hnone]
  · intro f hf hnodup hown
    have hpred := owned_pred_false FolderRow.id FolderRow.userId hAB hnodup hf hown
    refine ⟨?_, ?_, ?_⟩
    · intro hmem
      have h2 := (List.mem_filter.mp hmem).2
      rw [beq_iff_eq, hown] at h2
      exact hAB (Option.some.inj h2).symm
    · intro p
      have hany : db.folders.any
          (fun r => r.id == f.id && r.userId == some A) = false :=
        List.any_eq_false.mpr hpred
      have hmap := map_guard_id (apply_folder_patch p)
        (fun r => r.id == f.id && r.userId == some A) hpred
      simp only [update_folder, hany, hmap, Bool.false_eq_true, if_false]
    · have hremoved : db.folders.filter
          (fun r => r.id == f.id && r.userId == some A) = [] :=
        List.filter_eq_nil_iff.mpr hpred
      simp only [delete_folder, hremoved, List.isEmpty_nil, if_true]
  · intro t ht hnodup hown
    have hpred := owned_pred_false TagRow.id TagRow.userId hAB hnodup ht hown
    refine ⟨?_, ?_, ?_⟩
    · intro hmem
      have h2 := (List.mem_filter.mp hmem).2
      rw [beq_iff_eq, hown] at h2
      exact hAB (Option.some.inj h2).symm
    · intro p
      have hany : db.tags.any
          (fun r => r.id == t.id && r.userId == some A) = false :=
        List.any_eq_false.mpr hpred
      have hmap := map_guard_id
        (fun r : TagRow =>
          { r with name := p.name.getD r.name, color := p.color.getD r.color })
        (fun r => r.id == t.id && r.userId == some A) hpred
      simp only [update_tag, hany, hmap, Bool.false_eq_true, if_false]
    · have hremoved : db.tags.filter
          (fun r => r.id == t.id && r.userId == some A) = [] :=
        List.filter_eq_nil_iff.mpr hpred
      simp only [delete_tag, hremoved, List.isEmpty_nil, if_true]

/-- Witness for `owner_isolation`: Alice's read of Bob's document is a plain
`NotFound`. -/
theorem owner_isolation_witness :
    get_document
      { documents := [{ id := "d1", userId := some "bob", folderId := none,
                        title := "secret", slug := "secret", filePath := "secret.md",
                        wordCount := 0, charCount := 0, excerpt := none,
                        isPinned := false, isArchived := false }],
        folders := [], tags := [], documentTags := [], versions := [], files := [] }
      "alice" "d1" = .error .notFound :=
  ((owner_isolation
      { documents := [{ id := "d1", userId := some "bob", folderId := none,
                        title := "secret", slug := "secret", filePath := "secret.md",
                        wordCount := 0, charCount := 0, excerpt := none,
                        isPinned := false, isArchived := false }],
        folders := [], tags := [], documentTags := [], versions := [], files := [] }
      "alice" "bob" (by decide)).1
    { id := "d1", userId := some "bob", folderId := none,
      title := "secret", slug := "secret", filePath := "secret.md",
      wordCount := 0, charCount := 0, excerpt := none,
      isPinned := false, isArchived := false }
    (by simp) (by decide) rfl).1

/-- A lookup succeeds exactly when the key occurs. -/
theorem lookup_isSome_iff (g : FolderGraph) (a : String) :
    (g.lookup a).isSome = true ↔ a ∈ g.map Prod.fst := by
  induction g with
  | nil => simp [List.lookup]
  | cons e rest ih =>
      rcases e with ⟨k, v⟩
      by_cases h : a = k
      · subst h
        simp [List.lookup]
      · have hfalse : (a == k) = false := by simp [h]
        simp only [List.lookup, hfalse, List.map_cons, List.mem_cons]
        rw [ih]
        simp [h]

/-- A lookup misses exactly when the key is absent. -/
theorem lookup_none_iff (g : FolderGraph) (a : String) :
    g.lookup a = none ↔ a ∉ g.map Prod.fst := by
  rw [← lookup_isSome_iff]
  cases h : g.lookup a <;> simp

/-- A freshly consed folder has the given parent. -/
theorem parentOf_cons_self (g : FolderGraph) (f : String) (p : Option String) :
    parentOf ((f, p) :: g) f = p := by
  simp [parentOf, List.lookup]

/-- Consing a folder does not touch other folders' parents. -/
theorem parentOf_cons_ne (g : FolderGraph) (f : String) (p : Option String)
    {x : String} (hx : x ≠ f) :
    parentOf ((f, p) :: g) x = parentOf g x := by
  have hfalse : (x == f) = false := by simp [hx]
  simp [parentOf, List.lookup, hfalse]

/-- `setParent` rewrites the entry whose key heads the list. -/
theorem setParent_cons_hit (rest : FolderGraph) (v : Option String)
    (f : String) (p : Option String) :
    setParent ((f, v) :: rest) f p = (f, p) :: setParent rest f p := by
  simp [setParent]

/-- `setParent` keeps a head entry with a different key. -/
theorem setParent_cons_miss (rest : FolderGraph) (k : String)
    (v : Option String) (f : String) (p : Option String) (h : k ≠ f) :
    setParent ((k, v) :: rest) f p = (k, v) :: setParent rest f p := by
  simp [setParent, h]

/-- `setParent` keeps the key column unchanged. -/
theorem keys_setParent (g : FolderGraph) (f : String) (p : Option String) :
    (setParent g f p).map Prod.fst = g.map Prod.fst := by
  unfold setParent
  rw [List.map_map]
  apply List.map_congr_left
  intro e _
  by_cases h : e.1 = f <;> simp [h]

/-- `setParent` does not touch other folders' parents. -/
theorem parentOf_setParent_ne (g : FolderGraph) (f : String) (p : Option String)
    {x : String} (hx : x ≠ f) :
    parentOf (setParent g f p) x = parentOf g x := by
  induction g with
  | nil => rfl
  | cons e rest ih =>
      rcases e with ⟨k, v⟩
      by_cases hk : k = f
      · subst hk
        rw [setParent_cons_hit, parentOf_cons_ne _ _ _ hx,
          parentOf_cons_ne _ _ _ hx]
        exact ih
      · by_cases hxk : x = k
        · subst hxk
          rw [setParent_cons_miss _ _ _ _ _ hk, parentOf_cons_self,
            parentOf_cons_self]
        · rw [setParent_cons_miss _ _ _ _ _ hk, parentOf_cons_ne _ _ _ hxk,
            parentOf_cons_ne _ _ _ hxk]
          exact ih

/-- `setParent` installs the new parent on an existing folder. -/
theorem parentOf_setParent_self (g : FolderGraph) (f : String) (p : Option String)
    (h : f ∈ g.map Prod.fst) :
    parentOf (setParent g f p) f = p := by
  induction g with
  | nil => cases h
  | cons e rest ih =>
      rcases e with ⟨k, v⟩
      by_cases hk : k = f
      · subst hk
        rw [setParent_cons_hit, parentOf_cons_self]
      · have hfk : f ≠ k := fun hc => hk hc.symm
        have hmem : f ∈ rest.map Prod.fst := by
          rcases List.mem_cons.mp h with hfk2 | hmem
          · exact absurd hfk2 hfk
          · exact hmem
        rw [setParent_cons_miss _ _ _ _ _ hk, parentOf_cons_ne _ _ _ hfk]
        exact ih hmem

/-- Removing a folder whose key heads the list drops that entry. -/
theorem removeFolder_cons_drop (rest : FolderGraph) (v : Option String)
    (f : String) :
    removeFolder ((f, v) :: rest) f = removeFolder rest f := by
  simp [removeFolder]

/-- Removing a folder keeps (and possibly detaches) entries with other keys. -/
theorem removeFolder_cons_keep (rest : FolderGraph) (k : String)
    (v : Option String) (f : String) (h : k ≠ f) :
    removeFolder ((k, v) :: rest) f
      = (if v == some f then (k, none) else (k, v)) :: removeFolder rest f := by
  simp [removeFolder, h]

/-- Every parent edge surviving a folder deletion existed before and does not
point at the removed folder. -/
theorem parentOf_removeFolder (g : FolderGraph) (f : String)
    (hnodup : NodupKeys g) {a b : String}
    (h : parentOf (removeFolder g f) a = some b) :
    parentOf g a = some b ∧ b ≠ f := by
  induction g with
  | nil => simp [removeFolder, parentOf, List.lookup] at h
  | cons e rest ih =>
      rcases e with ⟨k, v⟩
      have hnd := List.nodup_cons.mp hnodup
      by_cases hkf : k = f
      · subst hkf
        rw [removeFolder_cons_drop] at h
        obtain ⟨hrest, hbf⟩ := ih hnd.2 h
        by_cases hak : a = k
        · subst hak
          exfalso
          have : a ∈ rest.map Prod.fst := by
            have hsome : (rest.lookup a).isSome = true := by
              unfold parentOf at hrest
              cases hl : rest.lookup a with
              | none => rw [hl] at hrest; simp at hrest
              | some u => simp [hl]
            exact (lookup_isSome_iff rest a).mp hsome
          exact hnd.1 this
        · exact ⟨by rw [parentOf_cons_ne rest k v hak]; exact hrest, hbf⟩
      · rw [removeFolder_cons_keep rest k v f hkf] at h
        by_cases hak : a = k
        · subst hak
          by_cases hvf : v = some f
          · exfalso
            rw [if_pos (by simp [hvf])] at h
            rw [parentOf_cons_self] at h
            cases h
          · rw [if_neg (by simp [hvf])] at h
            rw [parentOf_cons_self] at h
            refine ⟨by rw [parentOf_cons_self]; exact h, ?_⟩
            intro hbf
            exact hvf (by rw [h, hbf])
        · have h2 : parentOf (removeFolder rest f) a = some b := by
            by_cases hvf : v = some f
            · rw [if_pos (by simp [hvf])] at h
              rwa [parentOf_cons_ne _ _ _ hak] at h
            · rw [if_neg (by simp [hvf])] at h
              rwa [parentOf_cons_ne _ _ _ hak] at h
          obtain ⟨hrest, hbf⟩ := ih hnd.2 h2
          exact ⟨by rw [parentOf_cons_ne rest k v hak]; exact hrest, hbf⟩

/-- Splitting an iterated parent walk. -/
theorem iterParent_add (g : FolderGraph) :
    ∀ (a b : Nat) (x : String),
      iterParent g (a + b) x
        = match iterParent g a x with
          | some y => iterParent g b y
          | none => none := by
  intro a
  induction a with
  | zero =>
      intro b x
      rw [Nat.zero_add]
      rfl
  | succ a ih =>
      intro b x
      rw [Nat.succ_add]
      cases hp : parentOf g x with
      | none => simp [iterParent, hp]
      | some p =>
          simp only [iterParent, hp]
          exact ih b p

/-- A value reached by the iterated walk appears in the fuel-bounded chain. -/
theorem mem_chainF_of_iter (g : FolderGraph) :
    ∀ (j fuel : Nat) (q y : String),
      iterParent g j q = some y → j < fuel → y ∈ chainF g fuel q := by
  intro j
  induction j with
  | zero =>
      intro fuel q y hy hfuel
      cases fuel with
      | zero => omega
      | succ m =>
          have hq : q = y := by simpa [iterParent] using hy
          subst hq
          simp [chainF]
  | succ j ih =>
      intro fuel q y hy hfuel
      cases fuel with
      | zero => omega
      | succ m =>
          cases hp : parentOf g q with
          | none => simp [iterParent, hp] at hy
          | some p =>
              have hy2 : iterParent g j p = some y := by
                simpa [iterParent, hp] using hy
              have hmem := ih m p y hy2 (by omega)
              simp [chainF, hp]
              exact Or.inr hmem

/-- Reachability through parent edges is exactly the iterated walk. -/
theorem rtg_iff_iter (g : FolderGraph) (a b : String) :
    Relation.ReflTransGen (ParentStep g) a b
      ↔ ∃ n, iterParent g n a = some b := by
  constructor
  · intro h
    induction h with
    | refl => exact ⟨0, rfl⟩
    | tail _ hbc ih =>
        obtain ⟨n, hn⟩ := ih
        refine ⟨n + 1, ?_⟩
        rw [iterParent_add g n 1, hn]
        unfold ParentStep at hbc
        simp [iterParent, hbc]
  · rintro ⟨n, hn⟩
    induction n generalizing a with
    | zero =>
        have : a = b := by simpa [iterParent] using hn
        subst this
        exact Relation.ReflTransGen.refl
    | succ n ih =>
        cases hp : parentOf g a with
        | none => simp [iterParent, hp] at hn
        | some p =>
            have hn2 : iterParent g n p = some b := by
              simpa [iterParent, hp] using hn
            exact Relation.ReflTransGen.head hp (ih p hn2)

/-- Completeness of the write-time walk: a folder actually reachable from the
proposed parent is always detected, because a shortest parent path visits
distinct keys and so fits inside the fuel bound. -/
theorem creates_cycle_complete (g : FolderGraph) (f q : String)
    (hreach : Relation.ReflTransGen (ParentStep g) q f) :
    creates_cycle g f q = true := by
  have hex : ∃ n, iterParent g n q = some f := (rtg_iff_iter g q f).mp hreach
  have hn : iterParent g (Nat.find hex) q = some f := Nat.find_spec hex
  have hsome : ∀ j, j ≤ Nat.find hex → (iterParent g j q).isSome = true := by
    intro j hj
    rcases Nat.exists_eq_add_of_le hj with ⟨m, hm⟩
    cases hjq : iterParent g j q with
    | none =>
        rw [hm, iterParent_add, hjq] at hn
        cases hn
    | some y => simp
  have hinj : ∀ i j, i < j → j ≤ Nat.find hex →
      iterParent g i q ≠ iterParent g j q := by
    intro i j hij hjn heq
    rcases Nat.exists_eq_add_of_le hjn with ⟨m, hm⟩
    obtain ⟨y, hy⟩ := Option.isSome_iff_exists.mp (hsome i (by omega))
    have hjy : iterParent g j q = some y := by rw [← heq]; exact hy
    have hshort : iterParent g (i + m) q = some f := by
      have h2 : iterParent g (j + m) q = some f := by rw [← hm]; exact hn
      rw [iterParent_add, hjy] at h2
      rw [iterParent_add, hy]
      exact h2
    exact absurd hshort (Nat.find_min hex (by omega))
  have hmaps : ∀ j, j < Nat.find hex →
      ∃ y, iterParent g j q = some y ∧ y ∈ g.map Prod.fst := by
    intro j hj
    obtain ⟨y, hy⟩ := Option.isSome_iff_exists.mp (hsome j (by omega))
    refine ⟨y, hy, ?_⟩
    have h1 := hsome (j + 1) (by omega)
    rw [iterParent_add g j 1, hy] at h1
    cases hp : parentOf g y with
    | none => simp [iterParent, hp] at h1
    | some p =>
        have hl : (g.lookup y).isSome = true := by
          unfold parentOf at hp
          cases hlk : g.lookup y with
          | none => rw [hlk] at hp; cases hp
          | some u => simp
        exact (lookup_isSome_iff g y).mp hl
  have hcard : Nat.find hex ≤ g.length := by
    have h1 : (Finset.range (Nat.find hex)).card
        ≤ ((g.map Prod.fst).toFinset).card := by
      apply Finset.card_le_card_of_injOn (fun j => (iterParent g j q).getD "")
      · intro j hj
        simp only [Finset.mem_range] at hj
        obtain ⟨y, hy, hmem⟩ := hmaps j hj
        rw [hy]
        simpa using hmem
      · intro i hi j hj hij_eq
        simp only [Finset.coe_range, Set.mem_Iio] at hi hj
        by_contra hne
        obtain ⟨y, hy, _⟩ := hmaps i hi
        obtain ⟨z, hz, _⟩ := hmaps j hj
        simp only [hy, hz, Option.getD_some] at hij_eq
        rcases Nat.lt_or_ge i j with hlt | hge
        · exact hinj i j hlt (by omega) (by rw [hy, hz, hij_eq])
        · have hlt : j < i := by omega
          exact hinj j i hlt (by omega) (by rw [hy, hz, hij_eq])
    calc Nat.find hex = (Finset.range (Nat.find hex)).card :=
          (Finset.card_range _).symm
      _ ≤ ((g.map Prod.fst).toFinset).card := h1
      _ ≤ (g.map Prod.fst).length := List.toFinset_card_le _
      _ = g.length := List.length_map _ _
  have hmem := mem_chainF_of_iter g (Nat.find hex) (g.length + 1) q f hn
    (by omega)
  simpa [creates_cycle] using hmem

/-- Soundness of an accepted write: when the walk finds nothing, the folder is
not reachable from the proposed parent. -/
theorem not_reach_of_check_false (g : FolderGraph) (f q : String)
    (h : creates_cycle g f q = false) :
    ¬ Relation.ReflTransGen (ParentStep g) q f := by
  intro hr
  rw [creates_cycle_complete g f q hr] at h
  cases h

/-- A graph whose edges all existed before inherits acyclicity. -/
theorem acyclic_mono {g g2 : FolderGraph}
    (hsub : ∀ a b, ParentStep g2 a b → ParentStep g a b)
    (hacy : AcyclicGraph g) : AcyclicGraph g2 := fun c hc =>
  hacy c (Relation.TransGen.mono hsub hc)

/-- A path in a graph whose only changed edge source is `f` (rewired towards
`q`) either already existed, or passes through the new edge: it reaches `f`
through old edges and continues from `q`. -/
theorem rtg_decompose {g g2 : FolderGraph} {f q : String}
    (hne : ∀ a b, a ≠ f → (ParentStep g2 a b ↔ ParentStep g a b))
    (hf : ∀ b, ParentStep g2 f b → b = q) :
    ∀ a b, Relation.ReflTransGen (ParentStep g2) a b →
      Relation.ReflTransGen (ParentStep g) a b
      ∨ (Relation.ReflTransGen (ParentStep g) a f
         ∧ Relation.ReflTransGen (ParentStep g2) q b) := by
  intro a b h
  induction h using Relation.ReflTransGen.head_induction_on with
  | refl => exact Or.inl Relation.ReflTransGen.refl
  | @head x c hstep htail ih =>
      by_cases hxf : x = f
      · subst hxf
        have hcq : c = q := hf c hstep
        subst hcq
        exact Or.inr ⟨Relation.ReflTransGen.refl, htail⟩
      · have hstep_g : ParentStep g x c := (hne x c hxf).mp hstep
        rcases ih with hcb | ⟨hcf, hqb⟩
        · exact Or.inl (hcb.head hstep_g)
        · exact Or.inr ⟨hcf.head hstep_g, hqb⟩

/-- Rewiring one folder's parent towards a node that does not reach it keeps
the graph acyclic. -/
theorem acyclic_of_localized {g g2 : FolderGraph} {f q : String}
    (hacy : AcyclicGraph g)
    (hnotreach : ¬ Relation.ReflTransGen (ParentStep g) q f)
    (hne : ∀ a b, a ≠ f → (ParentStep g2 a b ↔ ParentStep g a b))
    (hf : ∀ b, ParentStep g2 f b → b = q) : AcyclicGraph g2 := by
  intro c hc
  obtain ⟨d, hstep, hrest⟩ := Relation.TransGen.head'_iff.mp hc
  by_cases hcf : c = f
  · have hdq : d = q := hf d (hcf ▸ hstep)
    rcases rtg_decompose hne hf d c hrest with hdc | ⟨hdf, _⟩
    · refine hnotreach ?_
      rw [← hdq, ← hcf]
      exact hdc
    · exact hnotreach (hdq ▸ hdf)
  · have hstep_g : ParentStep g c d := (hne c d hcf).mp hstep
    rcases rtg_decompose hne hf d c hrest with hdc | ⟨hdf, hqc⟩
    · exact hacy c (Relation.TransGen.head' hstep_g hdc)
    · have hcf2 : Relation.ReflTransGen (ParentStep g) c f := hdf.head hstep_g
      rcases rtg_decompose hne hf q c hqc with hqc_g | ⟨hqf, _⟩
      · exact hnotreach (hqc_g.trans hcf2)
      · exact hnotreach hqf

/-- `createFolder` preserves the folder-table invariant. -/
theorem createFolder_inv {g : FolderGraph} {f : String} {p : Option String}
    {g2 : FolderGraph} (hinv : GraphInv g) (h : createFolder g f p = .ok g2) :
    GraphInv g2 := by
  obtain ⟨hnodup, hclosed, hacy⟩ := hinv
  unfold createFolder at h
  split at h
  · cases h
  · rename_i hl
    have hfresh : f ∉ g.map Prod.fst := fun hm =>
      hl ((lookup_isSome_iff g f).mpr hm)
    split at h
    · injection h with h2
      subst h2
      refine ⟨List.nodup_cons.mpr ⟨hfresh, hnodup⟩, ?_, ?_⟩
      · intro a b hab
        by_cases haf : a = f
        · subst haf
          rw [parentOf_cons_self] at hab
          cases hab
        · rw [parentOf_cons_ne g f none haf] at hab
          exact List.mem_cons_of_mem _ (hclosed a b hab)
      · refine acyclic_mono ?_ hacy
        intro a b hab
        by_cases haf : a = f
        · subst haf
          unfold ParentStep at hab
          rw [parentOf_cons_self] at hab
          cases hab
        · unfold ParentStep at hab ⊢
          rwa [parentOf_cons_ne g f none haf] at hab
    · rename_i q
      split at h
      · cases h
      · rename_i hq
        injection h with h2
        subst h2
        have hqmem : q ∈ g.map Prod.fst := by
          rw [← lookup_isSome_iff]
          cases hlk : g.lookup q with
          | none => rw [hlk] at hq; simp at hq
          | some u => simp
        have hne : ∀ a b, a ≠ f →
            (ParentStep ((f, some q) :: g) a b ↔ ParentStep g a b) := by
          intro a b haf
          unfold ParentStep
          rw [parentOf_cons_ne g f (some q) haf]
        have hf2 : ∀ b, ParentStep ((f, some q) :: g) f b → b = q := by
          intro b hb
          unfold ParentStep at hb
          rw [parentOf_cons_self] at hb
          exact (Option.some.inj hb).symm
        have hnotreach : ¬ Relation.ReflTransGen (ParentStep g) q f := by
          intro hr
          rcases Relation.ReflTransGen.cases_tail hr with hqf | ⟨c, _, hcf⟩
          · rw [← hqf] at hqmem
            exact hfresh hqmem
          · exact hfresh (hclosed c f hcf)
        refine ⟨List.nodup_cons.mpr ⟨hfresh, hnodup⟩, ?_, ?_⟩
        · intro a b hab
          by_cases haf : a = f
          · subst haf
            rw [parentOf_cons_self] at hab
            rw [← Option.some.inj hab]
            exact List.mem_cons_of_mem _ hqmem
          · rw [parentOf_cons_ne g f (some q) haf] at hab
            exact List.mem_cons_of_mem _ (hclosed a b hab)
        · exact acyclic_of_localized hacy hnotreach hne hf2

/-- `updateFolderParent` preserves the folder-table invariant. -/
theorem updateFolderParent_inv {g : FolderGraph} {f : String}
    {p : Option String} {g2 : FolderGraph} (hinv : GraphInv g)
    (h : updateFolderParent g f p = .ok g2) : GraphInv g2 := by
  obtain ⟨hnodup, hclosed, hacy⟩ := hinv
  unfold updateFolderParent at h
  split at h
  · cases h
  · rename_i hl
    have hfmem : f ∈ g.map Prod.fst := by
      rw [← lookup_isSome_iff]
      cases hlk : g.lookup f with
      | none => rw [hlk] at hl; simp at hl
      | some u => simp
    split at h
    · injection h with h2
      subst h2
      refine ⟨?_, ?_, ?_⟩
      · unfold NodupKeys
        rw [keys_setParent]
        exact hnodup
      · intro a b hab
        by_cases haf : a = f
        · subst haf
          rw [parentOf_setParent_self g a none hfmem] at hab
          cases hab
        · rw [parentOf_setParent_ne g f none haf] at hab
          rw [keys_setParent]
          exact hclosed a b hab
      · refine acyclic_mono ?_ hacy
        intro a b hab
        unfold ParentStep at hab ⊢
        by_cases haf : a = f
        · subst haf
          rw [parentOf_setParent_self g a none hfmem] at hab
          cases hab
        · rwa [parentOf_setParent_ne g f none haf] at hab
    · rename_i q
      split at h
      · cases h
      · rename_i hq
        split at h
        · cases h
        · rename_i hcyc
          injection h with h2
          subst h2
          have hqmem : q ∈ g.map Prod.fst := by
            rw [← lookup_isSome_iff]
            cases hlk : g.lookup q with
            | none => rw [hlk] at hq; simp at hq
            | some u => simp
          have hne : ∀ a b, a ≠ f →
              (ParentStep (setParent g f (some q)) a b ↔ ParentStep g a b) := by
            intro a b haf
            unfold ParentStep
            rw [parentOf_setParent_ne g f (some q) haf]
          have hf2 : ∀ b, ParentStep (setParent g f (some q)) f b → b = q := by
            intro b hb
            unfold ParentStep at hb
            rw [parentOf_setParent_self g f (some q) hfmem] at hb
            exact (Option.some.inj hb).symm
          have hnotreach := not_reach_of_check_false g f q
            (Bool.eq_false_iff.mpr hcyc)
          refine ⟨?_, ?_, ?_⟩
          · unfold NodupKeys
            rw [keys_setParent]
            exact hnodup
          · intro a b hab
            rw [keys_setParent]
            by_cases haf : a = f
            · subst haf
              rw [parentOf_setParent_self g a (some q) hfmem] at hab
              rw [← Option.some.inj hab]
              exact hqmem
            · rw [parentOf_setParent_ne g f (some q) haf] at hab
              exact hclosed a b hab
          · exact acyclic_of_localized hacy hnotreach hne hf2

/-- `removeFolder` keeps the surviving keys. -/
theorem keys_removeFolder (g : FolderGraph) (f : String) :
    (removeFolder g f).map Prod.fst
      = (g.filter (fun e => !(e.1 == f))).map Prod.fst := by
  unfold removeFolder
  rw [List.map_map]
  apply List.map_congr_left
  intro e _
  by_cases h : e.2 = some f <;> simp [h]

/-- `deleteFolder` preserves the folder-table invariant. -/
theorem deleteFolder_inv {g : FolderGraph} {f : String} {g2 : FolderGraph}
    (hinv : GraphInv g) (h : deleteFolder g f = .ok g2) : GraphInv g2 := by
  obtain ⟨hnodup, hclosed, hacy⟩ := hinv
  unfold deleteFolder at h
  split at h
  · cases h
  · injection h with h2
    subst h2
    refine ⟨?_, ?_, ?_⟩
    · unfold NodupKeys
      rw [keys_removeFolder]
      exact List.Nodup.sublist (List.Sublist.map Prod.fst (List.filter_sublist g))
        hnodup
    · intro a b hab
      obtain ⟨hold, hbf⟩ := parentOf_removeFolder g f hnodup hab
      have hbmem := hclosed a b hold
      rw [keys_removeFolder]
      obtain ⟨e, he, hfst⟩ := List.mem_map.mp hbmem
      exact List.mem_map.mpr
        ⟨e, List.mem_filter.mpr ⟨he, by simp [hfst, hbf]⟩, hfst⟩
    · refine acyclic_mono ?_ hacy
      intro a b hab
      exact (parentOf_removeFolder g f hnodup hab).1

/-- C6: a write that would point a folder's `parent_id` at a node whose
ancestor chain contains the folder itself is rejected (the walk always
detects it), and consequently every folder-graph state reachable from an
empty table through the write operations has an acyclic parent graph. -/
theorem folder_cycle_check (g : FolderGraph) :
    (∀ f q, Relation.ReflTransGen (ParentStep g) q f →
       ∀ g2, updateFolderParent g f (some q) ≠ .ok g2)
    ∧ (ReachableGraph g → AcyclicGraph g) := by
  constructor
  · intro f q hreach g2 hok
    unfold updateFolderParent at hok
    split at hok
    · cases hok
    · have hok2 : (if (g.lookup q).isNone then
            (Except.error AppError.databaseError : Except AppError FolderGraph)
          else if creates_cycle g f q then
            Except.error (AppError.conflict "folder cycle")
          else Except.ok (setParent g f (some q))) = Except.ok g2 := hok
      split at hok2
      · cases hok2
      · rw [creates_cycle_complete g f q hreach] at hok2
        simp at hok2
  · intro h
    have hinv : GraphInv g := by
      induction h with
      | empty =>
          refine ⟨List.nodup_nil, ?_, ?_⟩
          · intro a b hab
            simp [parentOf, List.lookup] at hab
          · intro c hc
            obtain ⟨d, hstep, _⟩ := Relation.TransGen.head'_iff.mp hc
            unfold ParentStep parentOf at hstep
            simp [List.lookup] at hstep
      | create g f p g2 _ hok ih => exact createFolder_inv ih hok
      | update g f p g2 _ hok ih => exact updateFolderParent_inv ih hok
      | delete g f g2 _ hok ih => exact deleteFolder_inv ih hok
    exact hinv.2.2

/-- Witness for `folder_cycle_check`: a concrete table built by two creates
and one parent change is acyclic. -/
theorem folder_cycle_check_witness :
    AcyclicGraph [("b", none), ("a", none)] :=
  (folder_cycle_check [("b", none), ("a", none)]).2
    (ReachableGraph.update [("b", some "a"), ("a", none)] "b" none
      [("b", none), ("a", none)]
      (ReachableGraph.create [("a", none)] "b" (some "a")
        [("b", some "a"), ("a", none)]
        (ReachableGraph.create [] "a" none [("a", none)]
          ReachableGraph.empty rfl) rfl)
      rfl)

/-- C9: `loadContent(id)`'s completion updates the store only when
`currentDocument.id` still equals `id` at that moment; a response (success or
failure) for a document that is no longer current leaves the whole store
unchanged, and a response for the still-current document installs the fetched
content. -/
theorem loadContent_stale_response_never_overwrites
    (st : DocStoreState) (id : String) (outcome : FetchContentOutcome)
    (h : st.currentDocument.map DocMeta.id ≠ some id) :
    loadContentComplete st id outcome = st := by
  cases outcome with
  | ok content => simp [loadContentComplete, h]
  | err message => simp [loadContentComplete, h]

/-- Witness for `loadContent_stale_response_never_overwrites` at a concrete
stale completion. -/
theorem loadContent_stale_response_never_overwrites_witness :
    loadContentComplete
      { currentDocument := some { id := "d2", title := "B" },
        currentContent := "old", loading := true, error := none }
      "d1" (.ok "new")
    = { currentDocument := some { id := "d2", title := "B" },
        currentContent := "old", loading := true, error := none } :=
  loadContent_stale_response_never_overwrites _ "d1" (.ok "new") (by decide)

/-- C8 counterexample: with both tokens stored, a 401 original response and a
failing refresh call, `authFetch` removes the tokens, redirects to `/login`
and still returns the original 401 response — so the original 401 is not
returned "only when no refresh token is stored". -/
theorem authFetch_returns_original_after_failed_refresh :
    authFetch { accessToken := some "a", refreshToken := some "r" }
        { respond := fun _ => { status := 401, payload := "orig" },
          refresh := .notOk }
      = { result := { status := 401, payload := "orig" },
          store := { accessToken := none, refreshToken := none },
          redirectedToLogin := true, originalRequestCount := 1 }
    ∧ (TokenStore.refreshToken
        { accessToken := some "a", refreshToken := some "r" }) ≠ none := by
  exact ⟨rfl, by decide⟩

/-- C8 (amended): while an access token is stored and the original request
answers 401 — if a refresh token is stored and the refresh succeeds, the
original request is retried exactly once with the newly refreshed access token
and the retry's response is returned; if the refresh fails (non-ok or thrown),
both tokens are removed and the browser is redirected to `/login` while the
original 401 response is returned; if no refresh token is stored, the original
401 response is returned unchanged with the store untouched. -/
theorem authFetch_refresh_behaviour (st : TokenStore) (env : FetchEnv)
    (tok : String) (hacc : st.accessToken = some tok)
    (h401 : (env.respond (some tok)).status = 401) :
    (∀ rtok, st.refreshToken = some rtok →
       (∀ newAccess newRefresh, env.refresh = .ok newAccess newRefresh →
          authFetch st env =
            { result := env.respond (some newAccess),
              store := { accessToken := some newAccess,
                         refreshToken := some newRefresh },
              redirectedToLogin := false, originalRequestCount := 2 })
       ∧ (env.refresh = .notOk ∨ env.refresh = .threw →
          authFetch st env =
            { result := env.respond (some tok),
              store := { accessToken := none, refreshToken := none },
              redirectedToLogin := true, originalRequestCount := 1 }))
    ∧ (st.refreshToken = none →
       authFetch st env =
         { result := env.respond (some tok), store := st,
           redirectedToLogin := false, originalRequestCount := 1 }) := by
  refine ⟨fun rtok hr => ⟨fun newAccess newRefresh hok => ?_, fun hfail => ?_⟩,
          fun hnone => ?_⟩
  · simp [authFetch, hacc, h401, hr, hok]
  · rcases hfail with hfail | hfail <;> simp [authFetch, hacc, h401, hr, hfail]
  · simp [authFetch, hacc, h401, hnone]

/-- Witness for `authFetch_refresh_behaviour`: a concrete 401 followed by a
successful refresh and a single retry carrying the new access token. -/
theorem authFetch_refresh_behaviour_witness :
    authFetch { accessToken := some "a", refreshToken := some "r" }
        { respond := fun t =>
            if t = some "n1" then { status := 200, payload := "fresh" }
            else { status := 401, payload := "orig" },
          refresh := .ok "n1" "n2" }
      = { result := { status := 200, payload := "fresh" },
          store := { accessToken := some "n1", refreshToken := some "n2" },
          redirectedToLogin := false, originalRequestCount := 2 } := by
  have h := (authFetch_refresh_behaviour
      { accessToken := some "a", refreshToken := some "r" }
      { respond := fun t =>
          if t = some "n1" then { status := 200, payload := "fresh" }
          else { status := 401, payload := "orig" },
        refresh := .ok "n1" "n2" }
      "a" rfl (by decide)).1 "r" rfl
  have h2 := h.1 "n1" "n2" rfl
  simpa using h2

/-- Helper for the editor burst theorem: starting from a state with one
scheduled save and requests `F` already issued, a run of burst-spaced updates
keeps replacing the scheduled save without ever firing it. -/
theorem burst_foldl (d : String) :
    ∀ (us : List (Nat × String)) (t : Nat) (c : String) (F : List String),
      List.Chain' BurstGap ((t, c) :: us) →
      us.foldl (stepEdit (some d))
          { pending := some { fireAt := t + 1000, content := c }, fired := F }
        = { pending := some { fireAt := (us.getLastD (t, c)).1 + 1000,
                              content := (us.getLastD (t, c)).2 },
            fired := F } := by
  intro us
  induction us with
  | nil => intro t c F _; simp [List.getLastD]
  | cons e us ih =>
      intro t c F h
      obtain ⟨t', c'⟩ := e
      rw [List.chain'_cons] at h
      obtain ⟨⟨_, hlt⟩, htail⟩ := h
      have hnofire : ¬ (t + 1000 ≤ t') := by omega
      simp only [List.foldl_cons, List.getLastD_cons]
      have hstep : stepEdit (some d)
          { pending := some { fireAt := t + 1000, content := c }, fired := F }
          (t', c')
          = { pending := some { fireAt := t' + 1000, content := c' }, fired := F } := by
        simp [stepEdit, fireDue, onUpdate, hnofire]
      rw [hstep]
      exact ih t' c' F htail

/-- C10: a burst of consecutive editor updates on one document — each strictly
later than, but less than 1000 ms after, the previous one — issues no
`saveContent` request during the burst, and once input pauses exactly one
request fires, carrying the markdown of the last update. -/
theorem editor_burst_single_save (d : String) (u : Nat × String)
    (us : List (Nat × String)) (h : List.Chain' BurstGap (u :: us)) :
    flushPending (runBurst d (u :: us)) = [((u :: us).getLastD u).2]
    ∧ (runBurst d (u :: us)).fired = [] := by
  obtain ⟨t, c⟩ := u
  have hfirst : stepEdit (some d) { pending := none, fired := [] } (t, c)
      = { pending := some { fireAt := t + 1000, content := c }, fired := [] } := by
    simp [stepEdit, fireDue, onUpdate]
  have hrun : runBurst d ((t, c) :: us)
      = { pending := some { fireAt := (us.getLastD (t, c)).1 + 1000,
                            content := (us.getLastD (t, c)).2 },
          fired := [] } := by
    unfold runBurst
    rw [List.foldl_cons, hfirst]
    exact burst_foldl d us t c [] h
  rw [List.getLastD_cons, hrun]
  simp [flushPending]

/-- Witness for `editor_burst_single_save`: three keystrokes 900 ms and 800 ms
apart produce exactly one save of the final markdown. -/
theorem editor_burst_single_save_witness :
    flushPending (runBurst "doc" [(0, "h"), (900, "he"), (1700, "hel")])
      = ["hel"] := by
  have h := editor_burst_single_save "doc" (0, "h") [(900, "he"), (1700, "hel")]
    (by
      refine List.chain'_cons.mpr ⟨⟨by norm_num, by norm_num⟩, ?_⟩
      refine List.chain'_cons.mpr ⟨⟨by norm_num, by norm_num⟩, ?_⟩
      exact List.chain'_singleton _)
  simpa using h.1
